import Mathlib

/-!
Rule-based dialer selection (`rule.go`).

A shallow embedding of `RuleDialer` from `rule.go`: the three lookup tables
(`domainMap`, `ipMap`, `cidrMap`), the constructor `NewRuleDialer`, the
resolution function `NextDialer`, the learner `AddDomainIP` and the methods
`Addr`, `Dial` and `DialUDP`.

Modelling conventions.

* A Go `string` is a Lean `String` (a sequence of Unicode code points, so the
  model covers the valid UTF-8 strings).
* A value of the Go interface type `Dialer` is an `Option D`: `none` is the nil
  interface, `some d` a dialer.  Values stored in the tables are dialers `D`:
  they come from `NewStrategyDialer`, and a nil value in a table would make the
  type assertion `dialer.(Dialer)` panic on every load.
* `sync.Map` keyed by strings is a function `String → Option D`; `Store` is
  pointwise update.  `cidrMap` is keyed by the pointers returned by
  `net.ParseCIDR`, which are always fresh, so it is the list of stored entries
  and `Store` appends.  `sync.Map.Range` enumerates the entries in an
  unspecified order: `NextDialer` receives that enumeration as `scan`.
* The Go standard library functions used by `rule.go` (`net.SplitHostPort`,
  `net.ParseIP`, `IP.String`, `net.ParseCIDR`, `IPNet.Contains`,
  `unicode.ToLower`) are the fields of `GoLib`; the dialer factories of the
  repository (`DialerFromURL`, `NewStrategyDialer`) are the fields of
  `Factories`, and the methods of the interface `Dialer` are the fields of
  `DialerMethods`.  `goLib` is a concrete model of the library used to evaluate
  the definitions on concrete inputs.
-/

namespace Glider

/-! ## Go strings: `strings.Split`, `strings.Join`, `strings.ToLower` -/

/-- Split a character list at every occurrence of `sep`; the result is never empty. -/
def splitChars (sep : Char) : List Char → List (List Char)
  | [] => [[]]
  | c :: cs =>
    if c = sep then [] :: splitChars sep cs
    else
      match splitChars sep cs with
      | [] => [[c]]
      | p :: ps => (c :: p) :: ps

/-- Go `strings.Split(s, sep)` for a separator of one character. -/
def Split (s : String) (sep : Char) : List String :=
  (splitChars sep s.data).map String.mk

/-- Go `strings.Join(parts, sep)` for a separator of one character. -/
def Join (parts : List String) (sep : Char) : String :=
  String.mk (List.intercalate [sep] (parts.map String.data))

/-! ## The Go standard library and the dialer factories -/

/-- Go `net.IP`: a slice of bytes. -/
abbrev NetIP := List Nat

/-- Go `net.IPNet`: a network number and a mask. -/
structure IPNet where
  ip : NetIP
  mask : List Nat
deriving DecidableEq, Repr

/-- The functions of the Go standard library that `rule.go` calls.
`SplitHostPort` and `ParseIP`, `ParseCIDR` return `none` where Go returns an
error (resp. a nil `IP`). -/
structure GoLib where
  SplitHostPort : String → Option (String × String)
  ParseIP : String → Option NetIP
  IPString : NetIP → String
  ParseCIDR : String → Option IPNet
  Contains : IPNet → NetIP → Bool
  unicodeToLower : Char → Char

/-- Go `strings.ToLower(s)`: `unicode.ToLower` applied to every code point. -/
def ToLower (lib : GoLib) (s : String) : String :=
  String.mk (s.data.map lib.unicodeToLower)

/-- The configuration record `RuleConf`, with the fields `rule.go` reads. -/
structure RuleConf where
  Forward : List String
  Strategy : String
  CheckWebSite : String
  CheckDuration : Int
  Domain : List String
  IP : List String
  CIDR : List String
deriving DecidableEq, Repr

/-- The dialer factories called by `NewRuleDialer`.  `DialerFromURL(url, fwdr)`
receives the upstream dialer (`none` is nil) and returns a dialer or an error;
`NewStrategyDialer` returns the selector of a rule. -/
structure Factories (D E : Type) where
  DialerFromURL : String → Option D → Except E D
  NewStrategyDialer : String → List (Option D) → String → Int → D

/-! ## The rule dialer -/

/-- The struct `RuleDialer`. -/
structure RuleDialer (D : Type) where
  gDialer : Option D
  domainMap : String → Option D
  ipMap : String → Option D
  cidrMap : List (IPNet × D)

/-- The method `sync.Map.Store` on a table keyed by strings. -/
def Store {D : Type} (m : String → Option D) (key : String) (value : D) : String → Option D :=
  fun k => if k = key then some value else m k

/-- The callback loop `rd.cidrMap.Range(...)` of `NextDialer` over the
enumeration `scan`: `ret` is set at the first block containing `ip`, which
stops the iteration; `none` is `ret == nil`. -/
def cidrRange {D : Type} (lib : GoLib) (ip : NetIP) : List (IPNet × D) → Option D
  | [] => none
  | (cidr, value) :: rest =>
    if lib.Contains cidr ip then some value else cidrRange lib ip rest

/-- The loop `for i := length - 2; i >= 0; i--` of `NextDialer`; the argument
is `i + 1`, so that `0` is the exit of the loop, which returns `rd.gDialer`. -/
def domainLoop {D : Type} (rd : RuleDialer D) (domainParts : List String) : Nat → Option D
  | 0 => rd.gDialer
  | i + 1 =>
    match rd.domainMap (Join (domainParts.drop i) '.') with
    | some dialer => some dialer
    | none => domainLoop rd domainParts i

/-- The block `if ip := net.ParseIP(host); ip != nil` of `NextDialer`: `some`
where the block returns a dialer, `none` where control falls out of it. -/
def ipBranch {D : Type} (lib : GoLib) (rd : RuleDialer D) (scan : List (IPNet × D))
    (host : String) : Option D :=
  match lib.ParseIP host with
  | none => none
  | some ip =>
    match rd.ipMap (lib.IPString ip) with
    | some dialer => some dialer
    | none => cidrRange lib ip scan

/-- The method `NextDialer`.  `scan` is the enumeration of `rd.cidrMap` that
`Range` produces in this call. -/
def NextDialer {D : Type} (lib : GoLib) (rd : RuleDialer D) (scan : List (IPNet × D))
    (dstAddr : String) : Option D :=
  match lib.SplitHostPort dstAddr with
  | none => rd.gDialer
  | some (host, _) =>
    match ipBranch lib rd scan host with
    | some dialer => some dialer
    | none =>
      let domainParts := Split host '.'
      domainLoop rd domainParts (domainParts.length - 1)

/-- The loop of `AddDomainIP`; the argument is `i + 1` as in `domainLoop`.
Every registered suffix stores `ip` in `ipMap` and the loop goes on. -/
def addLoop {D : Type} (lib : GoLib) (domainParts : List String) (ip : String) :
    Nat → RuleDialer D → RuleDialer D
  | 0, rd => rd
  | i + 1, rd =>
    match rd.domainMap (ToLower lib (Join (domainParts.drop i) '.')) with
    | some dialer =>
      addLoop lib domainParts ip i { rd with ipMap := Store rd.ipMap ip dialer }
    | none => addLoop lib domainParts ip i rd

/-- The method `AddDomainIP`: the state after the call and the returned
`error` (`none` is nil). -/
def AddDomainIP {D : Type} (lib : GoLib) (rd : RuleDialer D) (domain ip : String) :
    RuleDialer D × Option String :=
  if ip ≠ "" then
    let domainParts := Split domain '.'
    (addLoop lib domainParts ip (domainParts.length - 1) rd, none)
  else (rd, none)

/-- The inner loop of `NewRuleDialer` over the URLs of one chain: each hop is
built on the previous one; an error is `log.Fatal`. -/
def chainLoop {D E : Type} (f : Factories D E) : List String → Option D → Except E (Option D)
  | [], fwdr => .ok fwdr
  | url :: urls, fwdr =>
    match f.DialerFromURL url fwdr with
    | .error err => .error err
    | .ok d => chainLoop f urls (some d)

/-- The loop of `NewRuleDialer` over `r.Forward`, appending to `fwdrs`. -/
def forwardLoop {D E : Type} (f : Factories D E) :
    List String → List (Option D) → Except E (List (Option D))
  | [], fwdrs => .ok fwdrs
  | chain :: chains, fwdrs =>
    match chainLoop f (Split chain ',') none with
    | .error err => .error err
    | .ok fwdr => forwardLoop f chains (fwdrs ++ [fwdr])

/-- The selector `sDialer` that `NewRuleDialer` builds for the rule `r`. -/
def ruleSelector {D E : Type} (f : Factories D E) (r : RuleConf) : Except E D :=
  match forwardLoop f r.Forward [] with
  | .error err => .error err
  | .ok fwdrs => .ok (f.NewStrategyDialer r.Strategy fwdrs r.CheckWebSite r.CheckDuration)

/-- The loop `for _, domain := range r.Domain`. -/
def storeDomains {D : Type} (lib : GoLib) (sDialer : D) :
    List String → RuleDialer D → RuleDialer D
  | [], rd => rd
  | domain :: rest, rd =>
    storeDomains lib sDialer rest
      { rd with domainMap := Store rd.domainMap (ToLower lib domain) sDialer }

/-- The loop `for _, ip := range r.IP`. -/
def storeIPs {D : Type} (sDialer : D) : List String → RuleDialer D → RuleDialer D
  | [], rd => rd
  | ip :: rest, rd => storeIPs sDialer rest { rd with ipMap := Store rd.ipMap ip sDialer }

/-- The loop `for _, s := range r.CIDR`: a string that does not parse is skipped. -/
def storeCIDRs {D : Type} (lib : GoLib) (sDialer : D) :
    List String → RuleDialer D → RuleDialer D
  | [], rd => rd
  | s :: rest, rd =>
    match lib.ParseCIDR s with
    | some cidr => storeCIDRs lib sDialer rest { rd with cidrMap := rd.cidrMap ++ [(cidr, sDialer)] }
    | none => storeCIDRs lib sDialer rest rd

/-- The body of the loop `for _, r := range rules` and the loop itself. -/
def rulesLoop {D E : Type} (lib : GoLib) (f : Factories D E) :
    List RuleConf → RuleDialer D → Except E (RuleDialer D)
  | [], rd => .ok rd
  | r :: rest, rd =>
    match ruleSelector f r with
    | .error err => .error err
    | .ok sDialer =>
      rulesLoop lib f rest
        (storeCIDRs lib sDialer r.CIDR (storeIPs sDialer r.IP (storeDomains lib sDialer r.Domain rd)))

/-- The constructor `NewRuleDialer`; `.error err` is the exit through
`log.Fatal(err)`. -/
def NewRuleDialer {D E : Type} (lib : GoLib) (f : Factories D E) (rules : List RuleConf)
    (gDialer : Option D) : Except E (RuleDialer D) :=
  rulesLoop lib f rules
    { gDialer := gDialer, domainMap := fun _ => none, ipMap := fun _ => none, cidrMap := [] }

/-! ## The methods `Addr`, `Dial` and `DialUDP` -/

/-- The methods of the interface `Dialer` on the dialers `D`.  `R` is the type
of the results `(net.Conn, error)` of `Dial` and `U` the type of the results
`(net.PacketConn, net.Addr, error)` of `DialUDP`. -/
structure DialerMethods (D R U : Type) where
  Addr : D → String
  Dial : D → String → String → R
  DialUDP : D → String → String → U

/-- The outcome of a method call on a value of interface type: the call
returns, or the value is nil and the call panics. -/
inductive Call (α : Type) where
  | ret : α → Call α
  | nilPanic : Call α
deriving DecidableEq, Repr

/-- The method `Addr`: the fixed text followed by `rd.gDialer.Addr()`. -/
def Addr {D R U : Type} (m : DialerMethods D R U) (rd : RuleDialer D) : Call String :=
  match rd.gDialer with
  | none => .nilPanic
  | some d => .ret ("RULE DIALER, DEFAULT: " ++ m.Addr d)

/-- The method `Dial`: `rd.NextDialer(addr).Dial(network, addr)`. -/
def Dial {D R U : Type} (lib : GoLib) (m : DialerMethods D R U) (rd : RuleDialer D)
    (scan : List (IPNet × D)) (network addr : String) : Call R :=
  match NextDialer lib rd scan addr with
  | none => .nilPanic
  | some d => .ret (m.Dial d network addr)

/-- The method `DialUDP`: `rd.NextDialer(addr).DialUDP(network, addr)`. -/
def DialUDP {D R U : Type} (lib : GoLib) (m : DialerMethods D R U) (rd : RuleDialer D)
    (scan : List (IPNet × D)) (network addr : String) : Call U :=
  match NextDialer lib rd scan addr with
  | none => .nilPanic
  | some d => .ret (m.DialUDP d network addr)

/-! ## A concrete model of the Go standard library

The definitions below follow the behaviour of the Go packages `net`, `net/netip`
and `strings` on valid UTF-8 input.  They are used to evaluate the rule dialer
on concrete destinations. -/

/-- Index of the first occurrence of `c`, as `bytealg.IndexByteString`. -/
def indexOfChar (c : Char) : List Char → Option Nat
  | [] => none
  | x :: xs => if x = c then some 0 else (indexOfChar c xs).map (· + 1)

/-- Index of the last occurrence of `c`. -/
def lastIndexOfChar (c : Char) : List Char → Option Nat
  | [] => none
  | x :: xs =>
    match lastIndexOfChar c xs with
    | some i => some (i + 1)
    | none => if x = c then some 0 else none

/-- Go `net.SplitHostPort`: `none` where Go returns an `AddrError`. -/
def goSplitHostPort (hostport : String) : Option (String × String) :=
  let s := hostport.data
  match lastIndexOfChar ':' s with
  | none => none
  | some i =>
    if s.head? = some '[' then
      match indexOfChar ']' s with
      | none => none
      | some e =>
        if e + 1 = s.length then none
        else if e + 1 = i then
          if (indexOfChar '[' (s.drop 1)).isSome then none
          else if (indexOfChar ']' (s.drop (e + 1))).isSome then none
          else some (String.mk ((s.take e).drop 1), String.mk (s.drop (i + 1)))
        else none
    else
      if (indexOfChar ':' (s.take i)).isSome then none
      else if (indexOfChar '[' s).isSome then none
      else if (indexOfChar ']' s).isSome then none
      else some (String.mk (s.take i), String.mk (s.drop (i + 1)))

/-- Value of a string of decimal digits. -/
def decimalValue (ds : List Char) : Nat :=
  ds.foldl (fun n c => 10 * n + (c.toNat - 48)) 0

/-- One field of a dotted IPv4 address: one to three digits, no leading zero,
at most 255. -/
def parseOctet (p : List Char) : Option Nat :=
  if p ≠ [] ∧ p.all Char.isDigit = true ∧ (p.length = 1 ∨ p.head? ≠ some '0')
      ∧ decimalValue p ≤ 255 then
    some (decimalValue p)
  else none

/-- Go `netip.parseIPv4Fields`: exactly four fields separated by dots. -/
def parseIPv4Fields (s : List Char) : Option (List Nat) :=
  match (splitChars '.' s).map parseOctet with
  | [some a, some b, some c, some d] => some [a, b, c, d]
  | _ => none

/-- Value of a hexadecimal digit. -/
def hexDigit (c : Char) : Option Nat :=
  if 48 ≤ c.toNat ∧ c.toNat ≤ 57 then some (c.toNat - 48)
  else if 97 ≤ c.toNat ∧ c.toNat ≤ 102 then some (c.toNat - 87)
  else if 65 ≤ c.toNat ∧ c.toNat ≤ 70 then some (c.toNat - 55)
  else none

/-- The hexadecimal group at the head of `s` (one to four digits) and the rest. -/
def hexGroup (s : List Char) : Option (Nat × List Char) :=
  let ds := s.takeWhile (fun c => (hexDigit c).isSome)
  if ds = [] ∨ 4 < ds.length then none
  else some (ds.foldl (fun n c => 16 * n + (hexDigit c).getD 0) 0, s.drop ds.length)

/-- The main loop of Go `netip.parseIPv6`: the remaining text, the bytes read
so far and the position of the ellipsis.  At most eight groups are read. -/
def parseIPv6Loop : Nat → List Char → List Nat → Option Nat →
    Option (List Char × List Nat × Option Nat)
  | 0, s, ip, ell => some (s, ip, ell)
  | fuel + 1, s, ip, ell =>
    if 16 ≤ ip.length then some (s, ip, ell)
    else
      match hexGroup s with
      | none => none
      | some (acc, rest) =>
        if rest.head? = some '.' then
          if (ell = none ∧ ip.length ≠ 12) ∨ 16 < ip.length + 4 then none
          else
            match parseIPv4Fields s with
            | none => none
            | some v4 => some ([], ip ++ v4, ell)
        else
          let ip1 := ip ++ [acc / 256, acc % 256]
          match rest with
          | [] => some ([], ip1, ell)
          | c :: s1 =>
            if c ≠ ':' then none
            else
              match s1 with
              | [] => none
              | c1 :: s2 =>
                if c1 = ':' then
                  if ell.isSome then none
                  else if s2 = [] then some ([], ip1, some ip1.length)
                  else parseIPv6Loop fuel s2 ip1 (some ip1.length)
                else parseIPv6Loop fuel s1 ip1 ell

/-- Go `netip.parseIPv6` for an address without zone: sixteen bytes. -/
def parseIPv6 (s : List Char) : Option (List Nat) :=
  if (indexOfChar '%' s).isSome then none
  else
    let lead := s.take 2 = [':', ':']
    let s0 := if lead then s.drop 2 else s
    if lead ∧ s0 = [] then some (List.replicate 16 0)
    else
      match parseIPv6Loop 8 s0 [] (if lead then some 0 else none) with
      | none => none
      | some (rest, ip, ell) =>
        if rest ≠ [] then none
        else if ip.length < 16 then
          match ell with
          | none => none
          | some e => some (ip.take e ++ List.replicate (16 - ip.length) 0 ++ ip.drop e)
        else if ell.isSome then none
        else some ip

/-- Go `net.ParseIP`: the 16-byte form of the address, `none` for nil. -/
def goParseIP (str : String) : Option NetIP :=
  let s := str.data
  match s.find? (fun c => c = '.' ∨ c = ':' ∨ c = '%') with
  | none => none
  | some c =>
    if c = '.' then
      (parseIPv4Fields s).map (fun v4 => [0, 0, 0, 0, 0, 0, 0, 0, 0, 0, 255, 255] ++ v4)
    else if c = ':' then parseIPv6 s
    else none

/-- Go `IP.To4`: the 4-byte form of an IPv4 address, `none` for nil. -/
def to4 (ip : NetIP) : Option NetIP :=
  if ip.length = 4 then some ip
  else if ip.length = 16 ∧ ip.take 12 = [0, 0, 0, 0, 0, 0, 0, 0, 0, 0, 255, 255] then
    some (ip.drop 12)
  else none

/-- Decimal digits of a byte. -/
def decimalDigits (n : Nat) : List Char :=
  if n < 10 then [Nat.digitChar n]
  else if n < 100 then [Nat.digitChar (n / 10), Nat.digitChar (n % 10)]
  else [Nat.digitChar (n / 100), Nat.digitChar (n / 10 % 10), Nat.digitChar (n % 10)]

/-- Lower-case hexadecimal digits of a 16-bit group, without leading zeros. -/
def hexDigits (n : Nat) : List Char :=
  if n < 16 then [Nat.digitChar n]
  else if n < 256 then [Nat.digitChar (n / 16), Nat.digitChar (n % 16)]
  else if n < 4096 then
    [Nat.digitChar (n / 256), Nat.digitChar (n / 16 % 16), Nat.digitChar (n % 16)]
  else
    [Nat.digitChar (n / 4096 % 16), Nat.digitChar (n / 256 % 16), Nat.digitChar (n / 16 % 16),
      Nat.digitChar (n % 16)]

/-- The 16-bit groups of a list of bytes. -/
def groupsOf : List Nat → List Nat
  | hi :: lo :: rest => (256 * hi + lo) :: groupsOf rest
  | _ => []

/-- Number of zero groups at the head of the list. -/
def zeroRun : List Nat → Nat
  | 0 :: gs => zeroRun gs + 1
  | _ => 0

/-- The first longest run of zero groups, as (start, length). -/
def longestZeroRun (gs : List Nat) : Nat × Nat :=
  (List.range gs.length).foldl
    (fun best i => if best.2 < zeroRun (gs.drop i) then (i, zeroRun (gs.drop i)) else best)
    (0, 0)

/-- Go `net.hexString`: two lower-case hexadecimal digits for every byte. -/
def hexString (b : List Nat) : List Char :=
  (b.map (fun x => [Nat.digitChar (x / 16 % 16), Nat.digitChar (x % 16)])).flatten

/-- Go `IP.String`: dotted decimal for an IPv4 address, else colon-hexadecimal
with the first longest run of two or more zero groups written `::`. -/
def goIPString (ip : NetIP) : String :=
  if ip.length = 0 then "<nil>"
  else
    match to4 ip with
    | some p4 => String.mk (List.intercalate ['.'] (p4.map decimalDigits))
    | none =>
      if ip.length ≠ 16 then String.mk ('?' :: hexString ip)
      else
        let gs := groupsOf ip
        let run := longestZeroRun gs
        if run.2 < 2 then String.mk (List.intercalate [':'] (gs.map hexDigits))
        else
          String.mk (List.intercalate [':'] ((gs.take run.1).map hexDigits) ++ [':', ':']
            ++ List.intercalate [':'] ((gs.drop (run.1 + run.2)).map hexDigits))

/-- Byte `i` of Go `net.CIDRMask(ones, bits)`. -/
def maskByte (ones i : Nat) : Nat :=
  if 8 * (i + 1) ≤ ones then 255
  else if ones ≤ 8 * i then 0
  else 256 - 2 ^ (8 - (ones - 8 * i))

/-- Go `net.CIDRMask(ones, 8 * len)`. -/
def cidrMask (ones len : Nat) : List Nat :=
  (List.range len).map (maskByte ones)

/-- Bytewise and of an address and a mask of the same length. -/
def andBytes (ip mask : List Nat) : List Nat :=
  List.zipWith (fun a m => a &&& m) ip mask

/-- Go `net.ParseCIDR`, the `*IPNet` result: `none` where Go returns an error. -/
def goParseCIDR (str : String) : Option IPNet :=
  let s := str.data
  match indexOfChar '/' s with
  | none => none
  | some i =>
    let addr := s.take i
    let mask := s.drop (i + 1)
    match goParseIP (String.mk addr) with
    | none => none
    | some ip16 =>
      let isV4 := (indexOfChar ':' addr).isNone
      let len := if isV4 then 4 else 16
      if mask = [] ∨ mask.all Char.isDigit = false ∨ 8 * len < decimalValue mask then none
      else
        let m := cidrMask (decimalValue mask) len
        some { ip := andBytes (if isV4 then ip16.drop 12 else ip16) m, mask := m }

/-- Go `IPNet.Contains`. -/
def goContains (n : IPNet) (ip : NetIP) : Bool :=
  let nn := (to4 n.ip).getD n.ip
  if (to4 n.ip).isNone ∧ n.ip.length ≠ 16 then false
  else if n.mask.length ≠ 4 ∧ n.mask.length ≠ 16 then false
  else if n.mask.length = 4 ∧ nn.length ≠ 4 then false
  else
    let m := if n.mask.length = 16 ∧ nn.length = 4 then n.mask.drop 12 else n.mask
    let x := (to4 ip).getD ip
    if x.length ≠ nn.length then false
    else decide (andBytes nn m = andBytes x m)

/-- The concrete library.  `unicode.ToLower` is modelled by `Char.toLower`:
`A`..`Z` are mapped to `a`..`z` and every other code point to itself.  It
agrees with Go on the ASCII range and on every code point that has no
lower-case mapping (such as U+1D400); it differs on the non-ASCII letters
that Go lower-cases (such as `É`), which the concrete inputs below avoid. -/
def goLib : GoLib where
  SplitHostPort := goSplitHostPort
  ParseIP := goParseIP
  IPString := goIPString
  ParseCIDR := goParseCIDR
  Contains := goContains
  unicodeToLower := Char.toLower

/-! ## The suffixes tried by the two loops, stated on the host name -/

/-- The dot-separated suffixes of `host` that are made of at least two labels,
from the shortest (the last two labels) to the longest (the whole host). -/
def labelSuffixes (host : String) : List String :=
  (((Split host '.').tails.filter (fun t => decide (2 ≤ t.length))).map
    (fun t => Join t '.')).reverse

/-- The names tried by the loop `for i := length - 2; i >= 0; i--` when it is
entered with `i + 1 = k`, in the order of the trials. -/
def trials (domainParts : List String) (k : Nat) : List String :=
  ((List.range k).map (fun i => Join (domainParts.drop i) '.')).reverse

/-! ## Example data -/

/-- A table state over dialers numbered by `Nat`: fallback `0`, two domain
rules, one literal IP and the blocks `10.0.0.0/8` and `10.1.0.0/16`. -/
def exampleDialer : RuleDialer Nat where
  gDialer := some 0
  domainMap := Store (Store (fun _ => none) "example.com" 1) "a.example.com" 2
  ipMap := Store (fun _ => none) "9.9.9.9" 3
  cidrMap := [(⟨[10, 0, 0, 0], [255, 0, 0, 0]⟩, 4), (⟨[10, 1, 0, 0], [255, 255, 0, 0]⟩, 5)]

/-- Factories over dialers numbered by `Nat`: an empty URL is refused, a hop
adds the length of its URL to its upstream, and the selector of a rule is
numbered by the rule's `CheckDuration`. -/
def exampleFactories : Factories Nat String where
  DialerFromURL := fun url fwdr =>
    if url = "" then .error "empty url" else .ok (url.length + fwdr.getD 0)
  NewStrategyDialer := fun _ _ _ duration => duration.toNat

/-- Two rules.  The first lists a domain in mixed case and a string that is
not a CIDR block; the second lists the IP of the first again, and an IPv6
address written with all its groups. -/
def exampleRules : List RuleConf :=
  [ { Forward := ["socks5://10.0.0.1:1080,ss://10.0.0.2:8443"], Strategy := "rr",
      CheckWebSite := "www.apple.com:443", CheckDuration := 1,
      Domain := ["Example.COM"], IP := ["1.2.3.4"], CIDR := ["10.0.0.0/8", "bogus"] },
    { Forward := ["http://10.0.0.3:8080"], Strategy := "ha",
      CheckWebSite := "www.apple.com:443", CheckDuration := 2,
      Domain := ["a.example.com"], IP := ["1.2.3.4", "0:0:0:0:0:0:0:1"],
      CIDR := ["10.1.0.0/16"] } ]

/-- The rule dialer that `NewRuleDialer` builds from `exampleRules` with the
fallback `0` (construction does not abort on these rules). -/
def exampleBuilt : RuleDialer Nat :=
  match NewRuleDialer goLib exampleFactories exampleRules (some 0) with
  | .ok rd => rd
  | .error _ =>
    { gDialer := none, domainMap := fun _ => none, ipMap := fun _ => none, cidrMap := [] }

/-- Methods over dialers numbered by `Nat`: the address of dialer `0` is
`DIRECT`, and the result of a dial records the dialer and the arguments of the
call. -/
def exampleMethods : DialerMethods Nat (Nat × String × String) (Nat × String × String) where
  Addr := fun d => if d = 0 then "DIRECT" else "FORWARDER"
  Dial := fun d network addr => (d, network, addr)
  DialUDP := fun d network addr => (d, network, addr)

/-- A table state whose domain table has the numeric key `1.2.3.4`, as a rule
listing that text among its domains produces. -/
def numericKeyDialer : RuleDialer Nat where
  gDialer := some 0
  domainMap := Store (fun _ => none) "1.2.3.4" 6
  ipMap := fun _ => none
  cidrMap := []

/-- The state `exampleDialer` with one more domain key, `localhost`, which has
no dot. -/
def dotlessKeyDialer : RuleDialer Nat :=
  { exampleDialer with domainMap := Store exampleDialer.domainMap "localhost" 9 }

/-! ## Registration, stated on the rule list -/

/-- The entries of the CIDR table for a rule list: for every rule in the order
of the list, one entry for every string of `r.CIDR` that parses, in the order
of `r.CIDR`, with the selector of the rule. -/
def cidrEntries {D E : Type} (lib : GoLib) (f : Factories D E) :
    List RuleConf → List (IPNet × D)
  | [] => []
  | r :: rest =>
    (match ruleSelector f r with
      | .ok S => (r.CIDR.filterMap lib.ParseCIDR).map (fun n => (n, S))
      | .error _ => []) ++ cidrEntries lib f rest

/-- The chain dialer as a left fold over the URLs of the chain: the fold
starts with no upstream, and every URL is built by `DialerFromURL` on the
dialer built before it.  For the URLs `u1, u2, u3` the result is
`DialerFromURL(u3, DialerFromURL(u2, DialerFromURL(u1, nil)))`. -/
def foldChain {D E : Type} (f : Factories D E) (urls : List String) : Except E (Option D) :=
  urls.foldl
    (fun acc url =>
      match acc with
      | .error err => .error err
      | .ok fwdr =>
        match f.DialerFromURL url fwdr with
        | .error err => .error err
        | .ok d => .ok (some d))
    (.ok none)

/-- The chain of URLs `urls` is built: every hop is accepted. -/
def ChainBuilt {D E : Type} (f : Factories D E) (urls : List String) : Prop :=
  ∃ fwdr, foldChain f urls = .ok fwdr

/-- The chain of URLs `urls` fails with `err`: the hops before some URL are
built, and `DialerFromURL` refuses that URL on the dialer built so far. -/
def ChainFailure {D E : Type} (f : Factories D E) (urls : List String) (err : E) : Prop :=
  ∃ (before after : List String) (url : String) (fwdr : Option D),
    urls = before ++ url :: after ∧ foldChain f before = .ok fwdr
      ∧ f.DialerFromURL url fwdr = .error err

/-- All the chains of the rule `r` are built. -/
def RuleBuilt {D E : Type} (f : Factories D E) (r : RuleConf) : Prop :=
  ∀ chain ∈ r.Forward, ChainBuilt f (Split chain ',')

/-- The rule `r` fails with `err`: the chains before some chain are built and
that chain fails with `err`. -/
def RuleFailure {D E : Type} (f : Factories D E) (r : RuleConf) (err : E) : Prop :=
  ∃ (before after : List String) (chain : String),
    r.Forward = before ++ chain :: after
      ∧ (∀ c ∈ before, ChainBuilt f (Split c ',')) ∧ ChainFailure f (Split chain ',') err

/-- The first failing call of `DialerFromURL` in the order of the rules, of
the chains of a rule and of the hops of a chain fails with `err`. -/
def FirstFailure {D E : Type} (f : Factories D E) (rules : List RuleConf) (err : E) : Prop :=
  ∃ (before after : List RuleConf) (r : RuleConf),
    rules = before ++ r :: after ∧ (∀ r' ∈ before, RuleBuilt f r') ∧ RuleFailure f r err

/-- Factories over dialers that are texts: a hop is written after its
upstream, an empty URL is refused, and a selector lists its strategy and its
chain dialers in the order received. -/
def traceFactories : Factories String String where
  DialerFromURL := fun url fwdr =>
    if url = "" then .error "empty url"
    else .ok (match fwdr with
      | none => url
      | some up => up ++ " > " ++ url)
  NewStrategyDialer := fun strategy fwdrs _ _ =>
    strategy ++ ":" ++ Join (fwdrs.map (fun d => d.getD "nil")) '|'

/-- A rule with a chain of three hops and a chain of one hop. -/
def chainRule : RuleConf where
  Forward := ["a,b,c", "d"]
  Strategy := "rr"
  CheckWebSite := ""
  CheckDuration := 0
  Domain := []
  IP := []
  CIDR := []

/-- The rules of `exampleRules` followed by a rule whose second chain has an
empty URL after its first hop. -/
def fatalRules : List RuleConf :=
  exampleRules ++
    [ { Forward := ["socks5://10.0.0.4:1080", "socks5://10.0.0.5:1080,,ss://10.0.0.6:8443"],
        Strategy := "rr", CheckWebSite := "", CheckDuration := 3,
        Domain := ["b.example.com"], IP := [], CIDR := [] } ]

/-- MATHEMATICAL BOLD CAPITAL A, U+1D400: an upper-case letter (general
category Lu, so `unicode.IsUpper` holds of it) that has no lower-case mapping:
`unicode.ToLower` returns it unchanged. -/
def boldCapitalA : Char := Char.ofNat 0x1D400

/-- The host `x.` followed by U+1D400: its last label is one upper-case letter. -/
def boldHost : String := String.mk ['x', '.', boldCapitalA]

/-- The destination of host `boldHost` and port `80`. -/
def boldDst : String := String.mk (boldHost.data ++ [':', '8', '0'])

/-- One rule, of selector `1`, that lists the domain `boldHost`. -/
def boldRules : List RuleConf :=
  [ { Forward := ["http://10.0.0.3:8080"], Strategy := "rr",
      CheckWebSite := "www.apple.com:443", CheckDuration := 1,
      Domain := [boldHost], IP := [], CIDR := [] } ]

/-- The rule dialer that `NewRuleDialer` builds from `boldRules` with the
fallback `0` (construction does not abort on these rules). -/
def boldBuilt : RuleDialer Nat :=
  match NewRuleDialer goLib exampleFactories boldRules (some 0) with
  | .ok rd => rd
  | .error _ =>
    { gDialer := none, domainMap := fun _ => none, ipMap := fun _ => none, cidrMap := [] }

/-! ## Lemmas on the loops -/

theorem trials_succ (parts : List String) (k : Nat) :
    trials parts (k + 1) = Join (parts.drop k) '.' :: trials parts k := by
  simp [trials, List.range_succ]

theorem tails_filter_two {α : Type} (l : List α) :
    l.tails.filter (fun t => decide (2 ≤ t.length))
      = (List.range (l.length - 1)).map (fun i => l.drop i) := by
  induction l with
  | nil => simp
  | cons a l ih =>
    cases l with
    | nil => simp
    | cons b l =>
      simp only [List.tails, List.length_cons] at ih ⊢
      rw [List.filter_cons_of_pos (by simp), ih]
      simp only [Nat.add_sub_cancel]
      rw [List.range_succ_eq_map l.length, List.map_cons, List.map_map]
      rfl

theorem labelSuffixes_eq_trials (host : String) :
    labelSuffixes host = trials (Split host '.') ((Split host '.').length - 1) := by
  simp [labelSuffixes, trials, tails_filter_two, List.map_map, Function.comp_def]

theorem domainLoop_eq {D : Type} (rd : RuleDialer D) (parts : List String) (k : Nat) :
    domainLoop rd parts k
      = match (trials parts k).findSome? rd.domainMap with
        | some dialer => some dialer
        | none => rd.gDialer := by
  induction k with
  | zero => simp [domainLoop, trials]
  | succ k ih =>
    rw [trials_succ, domainLoop, List.findSome?_cons]
    cases h : rd.domainMap (Join (parts.drop k) '.') with
    | none => simpa using ih
    | some d => simp

theorem findSome_first {α β : Type} (f : α → Option β) (pre post : List α) (d : α) (S : β)
    (hpre : ∀ x ∈ pre, f x = none) (hd : f d = some S) :
    (pre ++ d :: post).findSome? f = some S := by
  induction pre with
  | nil => simp [List.findSome?_cons, hd]
  | cons a pre ih =>
    have ha : f a = none := hpre a (by simp)
    have := ih (fun x hx => hpre x (by simp [hx]))
    simp [List.findSome?_cons, ha, this]

theorem findSome_none {α β : Type} (f : α → Option β) (l : List α)
    (h : ∀ x ∈ l, f x = none) : l.findSome? f = none := by
  induction l with
  | nil => rfl
  | cons a l ih =>
    have ha : f a = none := h a (by simp)
    simp [List.findSome?_cons, ha, ih (fun x hx => h x (by simp [hx]))]

theorem exists_last_some {α β : Type} (f : α → Option β) (l : List α)
    (h : ∃ x ∈ l, f x ≠ none) :
    ∃ (pre post : List α) (d : α) (S : β),
      l = pre ++ d :: post ∧ f d = some S ∧ ∀ x ∈ post, f x = none := by
  induction l with
  | nil => simp at h
  | cons a l ih =>
    by_cases hl : ∃ x ∈ l, f x ≠ none
    · obtain ⟨pre, post, d, S, hdec, hd, hpost⟩ := ih hl
      exact ⟨a :: pre, post, d, S, by rw [hdec, List.cons_append], hd, hpost⟩
    · have hall : ∀ x ∈ l, f x = none := by
        intro x hx
        by_contra hne
        exact hl ⟨x, hx, hne⟩
      obtain ⟨x, hx, hne⟩ := h
      rcases List.mem_cons.mp hx with rfl | hx
      · obtain ⟨S, hS⟩ := Option.ne_none_iff_exists'.mp hne
        exact ⟨[], l, x, S, rfl, hS, hall⟩
      · exact absurd (hall x hx) hne

theorem cidrRange_none {D : Type} (lib : GoLib) (ip : NetIP) (scan : List (IPNet × D))
    (h : ∀ e ∈ scan, lib.Contains e.1 ip = false) : cidrRange lib ip scan = none := by
  induction scan with
  | nil => rfl
  | cons e scan ih =>
    obtain ⟨cidr, value⟩ := e
    have he : lib.Contains cidr ip = false := h (cidr, value) (by simp)
    simp [cidrRange, he, ih (fun x hx => h x (by simp [hx]))]

theorem cidrRange_some {D : Type} (lib : GoLib) (ip : NetIP) (scan : List (IPNet × D))
    (h : ∃ e ∈ scan, lib.Contains e.1 ip = true) :
    ∃ e ∈ scan, lib.Contains e.1 ip = true ∧ cidrRange lib ip scan = some e.2 := by
  induction scan with
  | nil => simp at h
  | cons e scan ih =>
    obtain ⟨cidr, value⟩ := e
    by_cases he : lib.Contains cidr ip = true
    · exact ⟨(cidr, value), by simp, he, by simp [cidrRange, he]⟩
    · have hrest : ∃ e ∈ scan, lib.Contains e.1 ip = true := by
        obtain ⟨e, hmem, hc⟩ := h
        rcases List.mem_cons.mp hmem with rfl | hmem
        · exact absurd hc he
        · exact ⟨e, hmem, hc⟩
      obtain ⟨e, hmem, hc, hr⟩ := ih hrest
      exact ⟨e, by simp [hmem], hc, by simp [cidrRange, he, hr]⟩

theorem NextDialer_domain {D : Type} (lib : GoLib) (rd : RuleDialer D)
    (scan : List (IPNet × D)) (dstAddr host port : String)
    (hsplit : lib.SplitHostPort dstAddr = some (host, port))
    (hip : ipBranch lib rd scan host = none) :
    NextDialer lib rd scan dstAddr
      = match (labelSuffixes host).findSome? rd.domainMap with
        | some dialer => some dialer
        | none => rd.gDialer := by
  simp only [NextDialer, hsplit, hip, labelSuffixes_eq_trials, domainLoop_eq]

theorem toLower_dot (c : Char) : Char.toLower c = '.' ↔ c = '.' := by
  by_cases h : c.toNat ≥ 65 ∧ c.toNat ≤ 90
  · have hc : c = Char.ofNat c.toNat := (Char.ofNat_toNat c).symm
    obtain ⟨h1, h2⟩ := h
    generalize c.toNat = n at hc h1 h2
    subst hc
    interval_cases n <;> decide
  · simp [Char.toLower, h]

theorem toLower_idem (c : Char) : Char.toLower (Char.toLower c) = Char.toLower c := by
  by_cases h : c.toNat ≥ 65 ∧ c.toNat ≤ 90
  · have hc : c = Char.ofNat c.toNat := (Char.ofNat_toNat c).symm
    obtain ⟨h1, h2⟩ := h
    generalize c.toNat = n at hc h1 h2
    subst hc
    interval_cases n <;> decide
  · have : Char.toLower c = c := by simp [Char.toLower, h]
    rw [this, this]

theorem splitChars_map (f : Char → Char) (sep : Char) (hf : ∀ c, f c = sep ↔ c = sep)
    (l : List Char) :
    splitChars sep (l.map f) = (splitChars sep l).map (List.map f) := by
  induction l with
  | nil => rfl
  | cons c cs ih =>
    simp only [List.map_cons, splitChars, hf c]
    by_cases hc : c = sep
    · simp [hc, ih]
    · simp only [hc, if_false, ih]
      cases splitChars sep cs <;> rfl

theorem intersperse_map {α β : Type} (f : α → β) (sep : α) (l : List α) :
    (l.map f).intersperse (f sep) = (l.intersperse sep).map f := by
  induction l with
  | nil => rfl
  | cons a l ih =>
    cases l with
    | nil => rfl
    | cons b l => simpa using ih

theorem Split_ToLower (lib : GoLib) (hdot : ∀ c, lib.unicodeToLower c = '.' ↔ c = '.')
    (s : String) : Split (ToLower lib s) '.' = (Split s '.').map (ToLower lib) := by
  simp [Split, ToLower, splitChars_map lib.unicodeToLower '.' hdot, List.map_map,
    Function.comp_def]

theorem Join_ToLower (lib : GoLib) (hdot : ∀ c, lib.unicodeToLower c = '.' ↔ c = '.')
    (parts : List String) :
    Join (parts.map (ToLower lib)) '.' = ToLower lib (Join parts '.') := by
  have h1 : [lib.unicodeToLower '.'] = ['.'] := by rw [(hdot '.').mpr rfl]
  have h2 := intersperse_map (List.map lib.unicodeToLower) ['.'] (parts.map String.data)
  simp only [List.map_cons, List.map_nil, h1, List.map_map] at h2
  simp only [Join, ToLower, List.intercalate, List.map_flatten, List.map_map, ← h2]
  rfl

theorem trials_ToLower (lib : GoLib) (hdot : ∀ c, lib.unicodeToLower c = '.' ↔ c = '.')
    (parts : List String) (k : Nat) :
    trials (parts.map (ToLower lib)) k = (trials parts k).map (ToLower lib) := by
  simp [trials, ← List.map_drop, Join_ToLower lib hdot, List.map_map, Function.comp_def]

theorem labelSuffixes_ToLower (lib : GoLib)
    (hdot : ∀ c, lib.unicodeToLower c = '.' ↔ c = '.') (domain : String) :
    labelSuffixes (ToLower lib domain) = (labelSuffixes domain).map (ToLower lib) := by
  rw [labelSuffixes_eq_trials, labelSuffixes_eq_trials, Split_ToLower lib hdot,
    trials_ToLower lib hdot, List.length_map]

theorem Store_Store {D : Type} (m : String → Option D) (k : String) (v w : D) :
    Store (Store m k v) k w = Store m k w := by
  funext x
  by_cases h : x = k <;> simp [Store, h]

theorem addLoop_eq {D : Type} (lib : GoLib) (parts : List String) (ip : String) (k : Nat)
    (rd : RuleDialer D) :
    addLoop lib parts ip k rd
      = match ((trials parts k).map (ToLower lib)).reverse.findSome? rd.domainMap with
        | some S => { rd with ipMap := Store rd.ipMap ip S }
        | none => rd := by
  induction k generalizing rd with
  | zero => simp [addLoop, trials]
  | succ k ih =>
    rw [trials_succ, addLoop, List.map_cons, List.reverse_cons, List.findSome?_append]
    cases h : rd.domainMap (ToLower lib (Join (parts.drop k) '.')) with
    | none =>
      simp only [ih, List.findSome?_cons, h, List.findSome?_nil, Option.or_none]
    | some dialer =>
      simp only [ih, List.findSome?_cons, h]
      cases h2 : ((trials parts k).map (ToLower lib)).reverse.findSome? rd.domainMap with
      | none => simp
      | some S => simp [Store_Store]

theorem AddDomainIP_eq {D : Type} (lib : GoLib)
    (hdot : ∀ c, lib.unicodeToLower c = '.' ↔ c = '.') (rd : RuleDialer D)
    (domain ip : String) (hne : ip ≠ "") :
    AddDomainIP lib rd domain ip
      = (match (labelSuffixes (ToLower lib domain)).reverse.findSome? rd.domainMap with
          | some S => { rd with ipMap := Store rd.ipMap ip S }
          | none => rd, none) := by
  simp only [AddDomainIP, hne, ne_eq, not_false_eq_true, if_true, addLoop_eq,
    labelSuffixes_ToLower lib hdot, labelSuffixes_eq_trials]

theorem AddDomainIP_longest {D : Type} (lib : GoLib)
    (hdot : ∀ c, lib.unicodeToLower c = '.' ↔ c = '.') (rd : RuleDialer D)
    (domain ip : String) (hne : ip ≠ "") (pre post : List String) (d : String) (S : D)
    (hsuf : labelSuffixes (ToLower lib domain) = pre ++ d :: post)
    (hd : rd.domainMap d = some S) (hpost : ∀ x ∈ post, rd.domainMap x = none) :
    AddDomainIP lib rd domain ip = ({ rd with ipMap := Store rd.ipMap ip S }, none) := by
  have h : (labelSuffixes (ToLower lib domain)).reverse.findSome? rd.domainMap = some S := by
    rw [hsuf, List.reverse_append, List.reverse_cons, List.append_assoc]
    exact findSome_first rd.domainMap post.reverse _ d S
      (fun x hx => hpost x (List.mem_reverse.mp hx)) hd
  rw [AddDomainIP_eq lib hdot rd domain ip hne, h]

theorem ToLower_idem (lib : GoLib)
    (hidem : ∀ c, lib.unicodeToLower (lib.unicodeToLower c) = lib.unicodeToLower c)
    (s : String) : ToLower lib (ToLower lib s) = ToLower lib s := by
  simp only [ToLower, List.map_map]
  congr 1
  exact List.map_congr_left (fun c _ => hidem c)

theorem storeDomains_frame {D : Type} (lib : GoLib) (s : D) (ds : List String)
    (rd : RuleDialer D) :
    (storeDomains lib s ds rd).ipMap = rd.ipMap
      ∧ (storeDomains lib s ds rd).cidrMap = rd.cidrMap
      ∧ (storeDomains lib s ds rd).gDialer = rd.gDialer := by
  induction ds generalizing rd with
  | nil => exact ⟨rfl, rfl, rfl⟩
  | cons d ds ih => simpa [storeDomains] using ih _

theorem storeDomains_domainMap {D : Type} (lib : GoLib) (s : D) (ds : List String)
    (rd : RuleDialer D) (k : String) :
    (storeDomains lib s ds rd).domainMap k
      = if k ∈ ds.map (ToLower lib) then some s else rd.domainMap k := by
  induction ds generalizing rd with
  | nil => simp [storeDomains]
  | cons d ds ih =>
    rw [storeDomains, ih]
    by_cases h1 : k ∈ ds.map (ToLower lib)
    · simp [h1]
    · by_cases h2 : k = ToLower lib d <;> simp [h1, h2, Store]

theorem storeIPs_frame {D : Type} (s : D) (ips : List String) (rd : RuleDialer D) :
    (storeIPs s ips rd).domainMap = rd.domainMap
      ∧ (storeIPs s ips rd).cidrMap = rd.cidrMap
      ∧ (storeIPs s ips rd).gDialer = rd.gDialer := by
  induction ips generalizing rd with
  | nil => exact ⟨rfl, rfl, rfl⟩
  | cons d ds ih => simpa [storeIPs] using ih _

theorem storeIPs_ipMap {D : Type} (s : D) (ips : List String) (rd : RuleDialer D)
    (k : String) :
    (storeIPs s ips rd).ipMap k = if k ∈ ips then some s else rd.ipMap k := by
  induction ips generalizing rd with
  | nil => simp [storeIPs]
  | cons d ds ih =>
    rw [storeIPs, ih]
    by_cases h1 : k ∈ ds
    · simp [h1]
    · by_cases h2 : k = d <;> simp [h1, h2, Store]

theorem storeCIDRs_frame {D : Type} (lib : GoLib) (s : D) (cs : List String)
    (rd : RuleDialer D) :
    (storeCIDRs lib s cs rd).domainMap = rd.domainMap
      ∧ (storeCIDRs lib s cs rd).ipMap = rd.ipMap
      ∧ (storeCIDRs lib s cs rd).gDialer = rd.gDialer := by
  induction cs generalizing rd with
  | nil => exact ⟨rfl, rfl, rfl⟩
  | cons c cs ih =>
    rw [storeCIDRs]
    cases lib.ParseCIDR c with
    | none => exact ih _
    | some cidr => simpa using ih _

theorem ruleStep_ipMap {D : Type} (lib : GoLib) (s : D) (r : RuleConf) (rd : RuleDialer D)
    (k : String) :
    (storeCIDRs lib s r.CIDR (storeIPs s r.IP (storeDomains lib s r.Domain rd))).ipMap k
      = if k ∈ r.IP then some s else rd.ipMap k := by
  rw [(storeCIDRs_frame lib s r.CIDR _).2.1, storeIPs_ipMap, (storeDomains_frame lib s _ rd).1]

theorem ruleStep_domainMap {D : Type} (lib : GoLib) (s : D) (r : RuleConf)
    (rd : RuleDialer D) (k : String) :
    (storeCIDRs lib s r.CIDR (storeIPs s r.IP (storeDomains lib s r.Domain rd))).domainMap k
      = if k ∈ r.Domain.map (ToLower lib) then some s else rd.domainMap k := by
  rw [(storeCIDRs_frame lib s r.CIDR _).1, (storeIPs_frame s r.IP _).1, storeDomains_domainMap]

theorem rulesLoop_ipMap_keep {D E : Type} (lib : GoLib) (f : Factories D E)
    (post : List RuleConf) (rd1 rd : RuleDialer D) (ip : String)
    (h : rulesLoop lib f post rd1 = .ok rd) (hlast : ∀ r ∈ post, ip ∉ r.IP) :
    rd.ipMap ip = rd1.ipMap ip := by
  induction post generalizing rd1 with
  | nil =>
    simp only [rulesLoop, Except.ok.injEq] at h
    rw [h]
  | cons r post ih =>
    rw [rulesLoop] at h
    cases hs : ruleSelector f r with
    | error err => simp [hs] at h
    | ok s =>
      simp only [hs] at h
      rw [ih _ h (fun r' hr' => hlast r' (by simp [hr'])), ruleStep_ipMap]
      simp [hlast r (by simp)]

theorem rulesLoop_ipMap_last {D E : Type} (lib : GoLib) (f : Factories D E)
    (pre post : List RuleConf) (r : RuleConf) (rd0 rd : RuleDialer D) (ip : String) (S : D)
    (h : rulesLoop lib f (pre ++ r :: post) rd0 = .ok rd) (hmem : ip ∈ r.IP)
    (hlast : ∀ r' ∈ post, ip ∉ r'.IP) (hsel : ruleSelector f r = .ok S) :
    rd.ipMap ip = some S := by
  induction pre generalizing rd0 with
  | nil =>
    simp only [List.nil_append, rulesLoop, hsel] at h
    rw [rulesLoop_ipMap_keep lib f post _ rd ip h hlast, ruleStep_ipMap]
    simp [hmem]
  | cons p pre ih =>
    rw [List.cons_append, rulesLoop] at h
    cases hs : ruleSelector f p with
    | error err => simp [hs] at h
    | ok s =>
      simp only [hs] at h
      exact ih _ h

theorem rulesLoop_domainMap_keep {D E : Type} (lib : GoLib) (f : Factories D E)
    (post : List RuleConf) (rd1 rd : RuleDialer D) (k : String)
    (h : rulesLoop lib f post rd1 = .ok rd)
    (hlast : ∀ r ∈ post, k ∉ r.Domain.map (ToLower lib)) :
    rd.domainMap k = rd1.domainMap k := by
  induction post generalizing rd1 with
  | nil =>
    simp only [rulesLoop, Except.ok.injEq] at h
    rw [h]
  | cons r post ih =>
    rw [rulesLoop] at h
    cases hs : ruleSelector f r with
    | error err => simp [hs] at h
    | ok s =>
      simp only [hs] at h
      rw [ih _ h (fun r' hr' => hlast r' (by simp [hr'])), ruleStep_domainMap,
        if_neg (hlast r (by simp))]

theorem rulesLoop_domainMap_last {D E : Type} (lib : GoLib) (f : Factories D E)
    (pre post : List RuleConf) (r : RuleConf) (rd0 rd : RuleDialer D) (k : String) (S : D)
    (h : rulesLoop lib f (pre ++ r :: post) rd0 = .ok rd)
    (hmem : k ∈ r.Domain.map (ToLower lib))
    (hlast : ∀ r' ∈ post, k ∉ r'.Domain.map (ToLower lib))
    (hsel : ruleSelector f r = .ok S) :
    rd.domainMap k = some S := by
  induction pre generalizing rd0 with
  | nil =>
    simp only [List.nil_append, rulesLoop, hsel] at h
    rw [rulesLoop_domainMap_keep lib f post _ rd k h hlast, ruleStep_domainMap, if_pos hmem]
  | cons p pre ih =>
    rw [List.cons_append, rulesLoop] at h
    cases hs : ruleSelector f p with
    | error err => simp [hs] at h
    | ok s =>
      simp only [hs] at h
      exact ih _ h

theorem rulesLoop_keys_lower {D E : Type} (lib : GoLib) (f : Factories D E)
    (hidem : ∀ c, lib.unicodeToLower (lib.unicodeToLower c) = lib.unicodeToLower c)
    (rules : List RuleConf) (rd0 rd : RuleDialer D)
    (h : rulesLoop lib f rules rd0 = .ok rd)
    (h0 : ∀ k, rd0.domainMap k ≠ none → ToLower lib k = k) :
    ∀ k, rd.domainMap k ≠ none → ToLower lib k = k := by
  induction rules generalizing rd0 with
  | nil =>
    simp only [rulesLoop, Except.ok.injEq] at h
    rw [← h]
    exact h0
  | cons r rules ih =>
    rw [rulesLoop] at h
    cases hs : ruleSelector f r with
    | error err => simp [hs] at h
    | ok s =>
      simp only [hs] at h
      refine ih _ h ?_
      intro k hk
      rw [ruleStep_domainMap] at hk
      by_cases hmem : k ∈ r.Domain.map (ToLower lib)
      · obtain ⟨d, _, rfl⟩ := List.mem_map.mp hmem
        exact ToLower_idem lib hidem d
      · rw [if_neg hmem] at hk
        exact h0 k hk

/-! ## The names tried are the suffixes of the host with a dot, shortest first -/

theorem splitChars_ne_nil (sep : Char) (l : List Char) : splitChars sep l ≠ [] := by
  cases l with
  | nil => simp [splitChars]
  | cons c cs =>
    simp only [splitChars]
    split
    · simp
    · split <;> simp

theorem intercalate_cons_cons {α : Type} (sep p q : List α) (rest : List (List α)) :
    List.intercalate sep (p :: q :: rest) = p ++ sep ++ List.intercalate sep (q :: rest) := by
  simp [List.intercalate]

theorem intercalate_splitChars (sep : Char) (l : List Char) :
    List.intercalate [sep] (splitChars sep l) = l := by
  induction l with
  | nil => simp [splitChars, List.intercalate]
  | cons c cs ih =>
    have hne := splitChars_ne_nil sep cs
    cases hs : splitChars sep cs with
    | nil => exact absurd hs hne
    | cons p ps =>
      rw [hs] at ih
      by_cases hc : c = sep
      · simp only [splitChars, hc, if_true, hs]
        rw [intercalate_cons_cons, ih]
        simp
      · simp only [splitChars, hc, if_false, hs]
        cases ps with
        | nil =>
          simp [List.intercalate] at ih ⊢
          exact ih
        | cons q rest =>
          rw [intercalate_cons_cons] at ih ⊢
          simp [← ih]

theorem Join_Split (host : String) : Join (Split host '.') '.' = host := by
  simp [Join, Split, List.map_map, Function.comp_def, intercalate_splitChars]

theorem Join_cons_cons (p q : String) (rest : List String) :
    (Join (p :: q :: rest) '.').data = p.data ++ '.' :: (Join (q :: rest) '.').data := by
  simp [Join, intercalate_cons_cons]

theorem Join_drop_succ (parts : List String) (i : Nat) (h : i + 1 < parts.length) :
    (Join (parts.drop i) '.').data
      = (parts.get ⟨i, by omega⟩).data ++ '.' :: (Join (parts.drop (i + 1)) '.').data := by
  have h1 : parts.drop i = parts.get ⟨i, by omega⟩ :: parts.drop (i + 1) := by
    rw [List.get_eq_getElem]; exact List.drop_eq_getElem_cons (show i < parts.length by omega)
  have h2 : parts.drop (i + 1) = parts.get ⟨i + 1, h⟩ :: parts.drop (i + 1 + 1) := by
    rw [List.get_eq_getElem]; exact List.drop_eq_getElem_cons h
  rw [h1, h2, Join_cons_cons, ← h2]

/-- Every name tried contains a dot. -/
theorem dot_mem_of_mem_labelSuffixes (host d : String) (hd : d ∈ labelSuffixes host) :
    '.' ∈ d.data := by
  rw [labelSuffixes_eq_trials] at hd
  simp only [trials, List.mem_reverse, List.mem_map, List.mem_range] at hd
  obtain ⟨i, hi, rfl⟩ := hd
  rw [Join_drop_succ _ i (by omega)]
  simp

/-- Every name tried is a suffix of the host, as a string. -/
theorem suffix_of_mem_labelSuffixes (host d : String) (hd : d ∈ labelSuffixes host) :
    ∃ pre : List Char, host.data = pre ++ d.data := by
  rw [labelSuffixes_eq_trials] at hd
  simp only [trials, List.mem_reverse, List.mem_map, List.mem_range] at hd
  obtain ⟨i, hi, rfl⟩ := hd
  have key : ∀ j, j + 1 < (Split host '.').length →
      ∃ pre : List Char, host.data = pre ++ (Join ((Split host '.').drop j) '.').data := by
    intro j
    induction j with
    | zero => intro _; exact ⟨[], by simp [Join_Split]⟩
    | succ j ih =>
      intro hj
      obtain ⟨pre, hpre⟩ := ih (by omega)
      rw [Join_drop_succ _ j (by omega)] at hpre
      exact ⟨pre ++ ((Split host '.').get ⟨j, by omega⟩).data ++ ['.'], by simp [hpre]⟩
  exact key i (by omega)

/-- The names tried are in the order of their lengths, the shortest first. -/
theorem labelSuffixes_sorted (host : String) :
    (labelSuffixes host).Pairwise (fun a b => a.length < b.length) := by
  have step : ∀ i, i + 1 < (Split host '.').length →
      (Join ((Split host '.').drop (i + 1)) '.').length
        < (Join ((Split host '.').drop i) '.').length := by
    intro i hi
    show (Join _ '.').data.length < (Join _ '.').data.length
    rw [Join_drop_succ _ i hi]
    simp
    omega
  have mono : ∀ j i, i < j → j + 1 < (Split host '.').length + 1 → j < (Split host '.').length →
      (Join ((Split host '.').drop j) '.').length
        < (Join ((Split host '.').drop i) '.').length := by
    intro j
    induction j with
    | zero => intro i hi; omega
    | succ j ih =>
      intro i hi h1 h2
      have hs := step j h2
      by_cases hij : i = j
      · subst hij; exact hs
      · exact lt_trans hs (ih i (by omega) (by omega) (by omega))
  rw [labelSuffixes_eq_trials, trials, List.pairwise_reverse, List.pairwise_map]
  refine List.Pairwise.imp_of_mem ?_ (List.pairwise_lt_range _)
  intro i j hi hj hij
  rw [List.mem_range] at hi hj
  exact mono j i hij (by omega) (by omega)

/-! ## What `AddDomainIP` leaves unchanged -/

theorem addLoop_frame {D : Type} (lib : GoLib) (parts : List String) (ip : String) (k : Nat)
    (rd : RuleDialer D) :
    (addLoop lib parts ip k rd).domainMap = rd.domainMap
      ∧ (addLoop lib parts ip k rd).gDialer = rd.gDialer
      ∧ (addLoop lib parts ip k rd).cidrMap = rd.cidrMap := by
  induction k generalizing rd with
  | zero => exact ⟨rfl, rfl, rfl⟩
  | succ k ih =>
    rw [addLoop]
    cases rd.domainMap (ToLower lib (Join (parts.drop k) '.')) with
    | none => exact ih rd
    | some dialer => simpa using ih { rd with ipMap := Store rd.ipMap ip dialer }

theorem AddDomainIP_frame {D : Type} (lib : GoLib) (rd : RuleDialer D) (domain ip : String) :
    (AddDomainIP lib rd domain ip).1.domainMap = rd.domainMap
      ∧ (AddDomainIP lib rd domain ip).1.gDialer = rd.gDialer
      ∧ (AddDomainIP lib rd domain ip).1.cidrMap = rd.cidrMap := by
  unfold AddDomainIP
  by_cases h : ip = ""
  · simp [h]
  · simpa [h] using addLoop_frame lib (Split domain '.') ip _ rd

/-! ## Names without a dot -/

theorem dot_mem_host_of_mem_labelSuffixes (host d : String) (hd : d ∈ labelSuffixes host) :
    '.' ∈ host.data := by
  obtain ⟨pre, hpre⟩ := suffix_of_mem_labelSuffixes host d hd
  rw [hpre]
  exact List.mem_append_right pre (dot_mem_of_mem_labelSuffixes host d hd)

theorem labelSuffixes_of_no_dot (host : String) (h : '.' ∉ host.data) :
    labelSuffixes host = [] := by
  cases hl : labelSuffixes host with
  | nil => rfl
  | cons d rest =>
    exact absurd (dot_mem_host_of_mem_labelSuffixes host d (by rw [hl]; simp)) h

theorem findSome_congr {α β : Type} (f g : α → Option β) (l : List α)
    (h : ∀ x ∈ l, f x = g x) : l.findSome? f = l.findSome? g := by
  induction l with
  | nil => rfl
  | cons a l ih =>
    simp only [List.findSome?_cons, h a (by simp), ih (fun x hx => h x (by simp [hx]))]

theorem ipBranch_congr {D : Type} (lib : GoLib) (rd rd' : RuleDialer D)
    (scan : List (IPNet × D)) (host : String) (hip : rd'.ipMap = rd.ipMap) :
    ipBranch lib rd' scan host = ipBranch lib rd scan host := by
  simp [ipBranch, hip]

theorem NextDialer_unfold {D : Type} (lib : GoLib) (rd : RuleDialer D)
    (scan : List (IPNet × D)) (dstAddr : String) :
    NextDialer lib rd scan dstAddr
      = match lib.SplitHostPort dstAddr with
        | none => rd.gDialer
        | some (host, _) =>
          match ipBranch lib rd scan host with
          | some dialer => some dialer
          | none =>
            match (labelSuffixes host).findSome? rd.domainMap with
            | some dialer => some dialer
            | none => rd.gDialer := by
  simp only [NextDialer, labelSuffixes_eq_trials, domainLoop_eq]

/-! ## More on registration -/

theorem storeCIDRs_cidrMap {D : Type} (lib : GoLib) (s : D) (cs : List String)
    (rd : RuleDialer D) :
    (storeCIDRs lib s cs rd).cidrMap
      = rd.cidrMap ++ (cs.filterMap lib.ParseCIDR).map (fun n => (n, s)) := by
  induction cs generalizing rd with
  | nil => simp [storeCIDRs]
  | cons c cs ih =>
    rw [storeCIDRs]
    cases h : lib.ParseCIDR c with
    | none => simp [ih, List.filterMap_cons, h]
    | some cidr => simp [ih, List.filterMap_cons, h]

theorem ruleStep_cidrMap {D : Type} (lib : GoLib) (s : D) (r : RuleConf) (rd : RuleDialer D) :
    (storeCIDRs lib s r.CIDR (storeIPs s r.IP (storeDomains lib s r.Domain rd))).cidrMap
      = rd.cidrMap ++ (r.CIDR.filterMap lib.ParseCIDR).map (fun n => (n, s)) := by
  rw [storeCIDRs_cidrMap, (storeIPs_frame s r.IP _).2.1, (storeDomains_frame lib s _ rd).2.1]

theorem rulesLoop_cidrMap {D E : Type} (lib : GoLib) (f : Factories D E)
    (rules : List RuleConf) (rd0 rd : RuleDialer D)
    (h : rulesLoop lib f rules rd0 = .ok rd) :
    rd.cidrMap = rd0.cidrMap ++ cidrEntries lib f rules := by
  induction rules generalizing rd0 with
  | nil =>
    simp only [rulesLoop, Except.ok.injEq] at h
    simp [cidrEntries, h]
  | cons r rules ih =>
    rw [rulesLoop] at h
    cases hs : ruleSelector f r with
    | error err => simp [hs] at h
    | ok s =>
      simp only [hs] at h
      rw [ih _ h, ruleStep_cidrMap, cidrEntries, hs, List.append_assoc]

theorem cidrEntries_append {D E : Type} (lib : GoLib) (f : Factories D E)
    (pre post : List RuleConf) :
    cidrEntries lib f (pre ++ post) = cidrEntries lib f pre ++ cidrEntries lib f post := by
  induction pre with
  | nil => rfl
  | cons r pre ih => simp [cidrEntries, ih]

theorem mem_cidrEntries {D E : Type} (lib : GoLib) (f : Factories D E)
    (rules : List RuleConf) (e : IPNet × D) (he : e ∈ cidrEntries lib f rules) :
    ∃ r ∈ rules, ∃ s ∈ r.CIDR, lib.ParseCIDR s = some e.1 ∧ ruleSelector f r = .ok e.2 := by
  induction rules with
  | nil => simp [cidrEntries] at he
  | cons r rules ih =>
    rw [cidrEntries, List.mem_append] at he
    rcases he with he | he
    · cases hs : ruleSelector f r with
      | error err => simp [hs] at he
      | ok S =>
        simp only [hs, List.mem_map, List.mem_filterMap] at he
        obtain ⟨n, ⟨s, hs1, hs2⟩, rfl⟩ := he
        exact ⟨r, by simp, s, hs1, hs2, hs⟩
    · obtain ⟨r', hr', hrest⟩ := ih he
      exact ⟨r', by simp [hr'], hrest⟩

theorem rulesLoop_domainMap_some {D E : Type} (lib : GoLib) (f : Factories D E)
    (rules : List RuleConf) (rd0 rd : RuleDialer D) (k : String)
    (h : rulesLoop lib f rules rd0 = .ok rd)
    (hk : rd0.domainMap k ≠ none ∨ ∃ r ∈ rules, k ∈ r.Domain.map (ToLower lib)) :
    rd.domainMap k ≠ none := by
  induction rules generalizing rd0 with
  | nil =>
    simp only [rulesLoop, Except.ok.injEq] at h
    rcases hk with hk | ⟨r, hr, _⟩
    · rw [← h]; exact hk
    · simp at hr
  | cons r rules ih =>
    rw [rulesLoop] at h
    cases hs : ruleSelector f r with
    | error err => simp [hs] at h
    | ok s =>
      simp only [hs] at h
      refine ih _ h ?_
      by_cases hmem : k ∈ r.Domain.map (ToLower lib)
      · left
        rw [ruleStep_domainMap, if_pos hmem]
        simp
      · rcases hk with hk | ⟨r', hr', hk'⟩
        · left
          rw [ruleStep_domainMap, if_neg hmem]
          exact hk
        · rcases List.mem_cons.mp hr' with rfl | hr'
          · exact absurd hk' hmem
          · exact Or.inr ⟨r', hr', hk'⟩

theorem rulesLoop_ipMap_some {D E : Type} (lib : GoLib) (f : Factories D E)
    (rules : List RuleConf) (rd0 rd : RuleDialer D) (k : String)
    (h : rulesLoop lib f rules rd0 = .ok rd)
    (hk : rd0.ipMap k ≠ none ∨ ∃ r ∈ rules, k ∈ r.IP) :
    rd.ipMap k ≠ none := by
  induction rules generalizing rd0 with
  | nil =>
    simp only [rulesLoop, Except.ok.injEq] at h
    rcases hk with hk | ⟨r, hr, _⟩
    · rw [← h]; exact hk
    · simp at hr
  | cons r rules ih =>
    rw [rulesLoop] at h
    cases hs : ruleSelector f r with
    | error err => simp [hs] at h
    | ok s =>
      simp only [hs] at h
      refine ih _ h ?_
      by_cases hmem : k ∈ r.IP
      · left
        rw [ruleStep_ipMap, if_pos hmem]
        simp
      · rcases hk with hk | ⟨r', hr', hk'⟩
        · left
          rw [ruleStep_ipMap, if_neg hmem]
          exact hk
        · rcases List.mem_cons.mp hr' with rfl | hr'
          · exact absurd hk' hmem
          · exact Or.inr ⟨r', hr', hk'⟩

theorem chainLoop_ok {D E : Type} (f : Factories D E) (urls : List String) (up0 : Option D)
    (h : ∀ url ∈ urls, ∀ up, ∃ d, f.DialerFromURL url up = .ok d) :
    ∃ fwdr, chainLoop f urls up0 = .ok fwdr := by
  induction urls generalizing up0 with
  | nil => exact ⟨up0, rfl⟩
  | cons url urls ih =>
    obtain ⟨d, hd⟩ := h url (by simp) up0
    rw [chainLoop, hd]
    exact ih (some d) (fun u hu => h u (by simp [hu]))

theorem forwardLoop_ok {D E : Type} (f : Factories D E) (chains : List String)
    (acc : List (Option D))
    (h : ∀ chain ∈ chains, ∀ url ∈ Split chain ',', ∀ up, ∃ d, f.DialerFromURL url up = .ok d) :
    ∃ fwdrs, forwardLoop f chains acc = .ok fwdrs := by
  induction chains generalizing acc with
  | nil => exact ⟨acc, rfl⟩
  | cons chain chains ih =>
    obtain ⟨fwdr, hf⟩ := chainLoop_ok f (Split chain ',') none (h chain (by simp))
    rw [forwardLoop, hf]
    exact ih _ (fun c hc => h c (by simp [hc]))

theorem ruleSelector_ok {D E : Type} (f : Factories D E) (r : RuleConf)
    (h : ∀ chain ∈ r.Forward, ∀ url ∈ Split chain ',', ∀ up,
      ∃ d, f.DialerFromURL url up = .ok d) :
    ∃ S, ruleSelector f r = .ok S := by
  obtain ⟨fwdrs, hf⟩ := forwardLoop_ok f r.Forward [] h
  exact ⟨_, by rw [ruleSelector, hf]⟩

theorem rulesLoop_ok {D E : Type} (lib : GoLib) (f : Factories D E) (rules : List RuleConf)
    (rd0 : RuleDialer D) (h : ∀ r ∈ rules, ∃ S, ruleSelector f r = .ok S) :
    ∃ rd, rulesLoop lib f rules rd0 = .ok rd := by
  induction rules generalizing rd0 with
  | nil => exact ⟨rd0, rfl⟩
  | cons r rules ih =>
    obtain ⟨S, hS⟩ := h r (by simp)
    rw [rulesLoop, hS]
    exact ih _ (fun r' hr' => h r' (by simp [hr']))

theorem filterMap_length {α β : Type} (g : α → Option β) (l : List α) :
    (l.filterMap g).length = (l.filter (fun x => (g x).isSome)).length := by
  induction l with
  | nil => rfl
  | cons a l ih =>
    cases h : g a with
    | none => simp [List.filterMap_cons, List.filter_cons, h, ih]
    | some b => simp [List.filterMap_cons, List.filter_cons, h, ih]

theorem cidrEntries_length {D E : Type} (lib : GoLib) (f : Factories D E)
    (rules : List RuleConf) (h : ∀ r ∈ rules, ∃ S, ruleSelector f r = .ok S) :
    (cidrEntries lib f rules).length
      = (rules.map
          (fun r => (r.CIDR.filter (fun s => (lib.ParseCIDR s).isSome)).length)).sum := by
  induction rules with
  | nil => rfl
  | cons r rules ih =>
    obtain ⟨S, hS⟩ := h r (by simp)
    rw [cidrEntries, hS, List.length_append, ih (fun r' hr' => h r' (by simp [hr']))]
    simp [filterMap_length]

theorem mem_cidrEntries_of_parse {D E : Type} (lib : GoLib) (f : Factories D E)
    (rules : List RuleConf) (r : RuleConf) (s : String) (n : IPNet) (S : D)
    (hr : r ∈ rules) (hs : s ∈ r.CIDR) (hn : lib.ParseCIDR s = some n)
    (hS : ruleSelector f r = .ok S) : (n, S) ∈ cidrEntries lib f rules := by
  induction rules with
  | nil => simp at hr
  | cons r' rules ih =>
    rw [cidrEntries, List.mem_append]
    rcases List.mem_cons.mp hr with rfl | hr
    · left
      rw [hS]
      simp only [List.mem_map, List.mem_filterMap]
      exact ⟨n, ⟨s, hs, hn⟩, rfl⟩
    · exact Or.inr (ih hr)

/-! ## Upper case in the last label -/

theorem map_eq_self_mem {α : Type} (g : α → α) (l : List α) (h : l.map g = l) :
    ∀ a ∈ l, g a = a := by
  induction l with
  | nil => simp
  | cons b l ih =>
    simp only [List.map_cons, List.cons.injEq] at h
    intro a ha
    rcases List.mem_cons.mp ha with rfl | ha
    · exact h.1
    · exact ih h.2 a ha

theorem ToLower_ne_of_mem (lib : GoLib) (s : String) (c : Char) (hc : c ∈ s.data)
    (hup : lib.unicodeToLower c ≠ c) : ToLower lib s ≠ s := by
  intro h
  have h2 : s.data.map lib.unicodeToLower = s.data := congrArg String.data h
  exact hup (map_eq_self_mem lib.unicodeToLower s.data h2 c hc)

theorem Join_getLast (parts : List String) (last : String)
    (h : parts.getLast? = some last) :
    ∃ pre : List Char, (Join parts '.').data = pre ++ last.data := by
  induction parts with
  | nil => simp at h
  | cons p parts ih =>
    cases parts with
    | nil =>
      simp only [List.getLast?_singleton, Option.some.injEq] at h
      exact ⟨[], by simp [Join, List.intercalate, h]⟩
    | cons q rest =>
      rw [List.getLast?_cons_cons] at h
      obtain ⟨pre, hpre⟩ := ih h
      exact ⟨p.data ++ '.' :: pre, by rw [Join_cons_cons, hpre]; simp⟩

theorem last_label_of_mem_labelSuffixes (host d last : String)
    (hlast : (Split host '.').getLast? = some last) (hd : d ∈ labelSuffixes host) :
    ∃ pre : List Char, d.data = pre ++ last.data := by
  rw [labelSuffixes_eq_trials] at hd
  simp only [trials, List.mem_reverse, List.mem_map, List.mem_range] at hd
  obtain ⟨i, hi, rfl⟩ := hd
  apply Join_getLast
  rw [List.getLast?_drop, if_neg (by omega), hlast]

theorem splitChars_length_of_mem (sep : Char) (l : List Char) (h : sep ∈ l) :
    2 ≤ (splitChars sep l).length := by
  induction l with
  | nil => simp at h
  | cons c cs ih =>
    have hne := splitChars_ne_nil sep cs
    by_cases hc : c = sep
    · simp only [splitChars, hc, if_true, List.length_cons]
      have : 0 < (splitChars sep cs).length := List.length_pos.mpr hne
      omega
    · have hcs : sep ∈ cs := by
        rcases List.mem_cons.mp h with h | h
        · exact absurd h.symm hc
        · exact h
      have := ih hcs
      simp only [splitChars, hc, if_false]
      cases hs : splitChars sep cs with
      | nil => exact absurd hs hne
      | cons p ps =>
        rw [hs] at this
        simpa using this

theorem labelSuffixes_last (host : String) (h : '.' ∈ host.data) :
    ∃ pre : List String, labelSuffixes host = pre ++ [host] := by
  have hlen : 2 ≤ (Split host '.').length := by
    simpa [Split] using splitChars_length_of_mem '.' host.data h
  obtain ⟨k, hk⟩ : ∃ k, (Split host '.').length - 1 = k + 1 := ⟨(Split host '.').length - 2, by omega⟩
  rw [labelSuffixes_eq_trials, hk, trials, List.range_succ_eq_map, List.map_cons,
    List.reverse_cons, List.drop_zero, Join_Split]
  exact ⟨_, rfl⟩

theorem dot_mem_ToLower (lib : GoLib) (hdot : ∀ c, lib.unicodeToLower c = '.' ↔ c = '.')
    (d : String) (h : '.' ∈ d.data) : '.' ∈ (ToLower lib d).data := by
  show '.' ∈ d.data.map lib.unicodeToLower
  exact List.mem_map.mpr ⟨'.', h, (hdot '.').mpr rfl⟩

/-! ## The chains -/

theorem foldl_chain_eq {D E : Type} (f : Factories D E) (urls : List String)
    (acc : Except E (Option D)) :
    urls.foldl
        (fun acc url =>
          match acc with
          | .error err => .error err
          | .ok fwdr =>
            match f.DialerFromURL url fwdr with
            | .error err => .error err
            | .ok d => .ok (some d))
        acc
      = match acc with
        | .error err => .error err
        | .ok fwdr => chainLoop f urls fwdr := by
  induction urls generalizing acc with
  | nil => cases acc <;> rfl
  | cons url urls ih =>
    rw [List.foldl_cons, ih]
    cases acc with
    | error err => rfl
    | ok fwdr =>
      simp only [chainLoop]
      cases f.DialerFromURL url fwdr <;> rfl

theorem chainLoop_eq_foldChain {D E : Type} (f : Factories D E) (urls : List String) :
    chainLoop f urls none = foldChain f urls := by
  rw [foldChain, foldl_chain_eq]

theorem chainLoop_append {D E : Type} (f : Factories D E) (us vs : List String)
    (up0 : Option D) :
    chainLoop f (us ++ vs) up0
      = match chainLoop f us up0 with
        | .error err => .error err
        | .ok fwdr => chainLoop f vs fwdr := by
  induction us generalizing up0 with
  | nil => rfl
  | cons u us ih =>
    simp only [List.cons_append, chainLoop]
    cases f.DialerFromURL u up0 with
    | error err => rfl
    | ok d => exact ih (some d)

theorem chainLoop_error_iff {D E : Type} (f : Factories D E) (urls : List String)
    (up0 : Option D) (err : E) :
    chainLoop f urls up0 = .error err
      ↔ ∃ (before after : List String) (url : String) (fwdr : Option D),
          urls = before ++ url :: after ∧ chainLoop f before up0 = .ok fwdr
            ∧ f.DialerFromURL url fwdr = .error err := by
  constructor
  · intro h
    induction urls generalizing up0 with
    | nil => simp [chainLoop] at h
    | cons url urls ih =>
      rw [chainLoop] at h
      cases hd : f.DialerFromURL url up0 with
      | error e =>
        simp only [hd, Except.error.injEq] at h
        exact ⟨[], urls, url, up0, rfl, rfl, by rw [hd, h]⟩
      | ok d =>
        simp only [hd] at h
        obtain ⟨before, after, u, fwdr, hdec, hb, hu⟩ := ih (some d) h
        exact ⟨url :: before, after, u, fwdr, by rw [hdec, List.cons_append],
          by rw [chainLoop, hd]; exact hb, hu⟩
  · rintro ⟨before, after, url, fwdr, rfl, hb, hu⟩
    rw [chainLoop_append, hb]
    simp only [chainLoop, hu]

theorem chain_failure_iff {D E : Type} (f : Factories D E) (urls : List String) (err : E) :
    chainLoop f urls none = .error err ↔ ChainFailure f urls err := by
  rw [chainLoop_error_iff]
  simp only [ChainFailure, chainLoop_eq_foldChain]

theorem chain_built_iff {D E : Type} (f : Factories D E) (urls : List String) :
    (∃ fwdr, chainLoop f urls none = .ok fwdr) ↔ ChainBuilt f urls := by
  simp only [ChainBuilt, chainLoop_eq_foldChain]

theorem forwardLoop_error_iff {D E : Type} (f : Factories D E) (chains : List String)
    (acc : List (Option D)) (err : E) :
    forwardLoop f chains acc = .error err
      ↔ ∃ (before after : List String) (chain : String),
          chains = before ++ chain :: after
            ∧ (∀ c ∈ before, ChainBuilt f (Split c ',')) ∧ ChainFailure f (Split chain ',') err := by
  induction chains generalizing acc with
  | nil => simp [forwardLoop]
  | cons chain chains ih =>
    rw [forwardLoop]
    cases hc : chainLoop f (Split chain ',') none with
    | error e =>
      constructor
      · intro h
        simp only [Except.error.injEq] at h
        exact ⟨[], chains, chain, rfl, by simp,
          (chain_failure_iff f _ err).mp (by rw [hc, h])⟩
      · rintro ⟨before, after, c, hdec, hb, hfail⟩
        cases before with
        | nil =>
          simp only [List.nil_append, List.cons.injEq] at hdec
          have h2 := (chain_failure_iff f _ err).mpr hfail
          rw [← hdec.1, hc] at h2
          simpa using h2
        | cons b before =>
          simp only [List.cons_append, List.cons.injEq] at hdec
          obtain ⟨fwdr, hf⟩ := (chain_built_iff f _).mpr (hb b (by simp))
          rw [← hdec.1, hc] at hf
          simp at hf
    | ok fwdr =>
      simp only []
      rw [ih]
      constructor
      · rintro ⟨before, after, c, hdec, hb, hfail⟩
        refine ⟨chain :: before, after, c, by rw [hdec, List.cons_append], ?_, hfail⟩
        intro x hx
        rcases List.mem_cons.mp hx with rfl | hx
        · exact (chain_built_iff f _).mp ⟨fwdr, hc⟩
        · exact hb x hx
      · rintro ⟨before, after, c, hdec, hb, hfail⟩
        cases before with
        | nil =>
          simp only [List.nil_append, List.cons.injEq] at hdec
          have h2 := (chain_failure_iff f _ err).mpr hfail
          rw [← hdec.1, hc] at h2
          simp at h2
        | cons b before =>
          simp only [List.cons_append, List.cons.injEq] at hdec
          exact ⟨before, after, c, hdec.2, fun x hx => hb x (by simp [hx]), hfail⟩

theorem forwardLoop_ok_iff {D E : Type} (f : Factories D E) (chains : List String)
    (acc : List (Option D)) :
    (∃ fwdrs, forwardLoop f chains acc = .ok fwdrs)
      ↔ ∀ c ∈ chains, ChainBuilt f (Split c ',') := by
  induction chains generalizing acc with
  | nil => simp [forwardLoop]
  | cons chain chains ih =>
    rw [forwardLoop]
    cases hc : chainLoop f (Split chain ',') none with
    | error e =>
      constructor
      · rintro ⟨_, h⟩
        simp at h
      · intro h
        obtain ⟨fwdr, hf⟩ := (chain_built_iff f _).mpr (h chain (by simp))
        rw [hc] at hf
        simp at hf
    | ok fwdr =>
      simp only []
      rw [ih]
      constructor
      · intro h x hx
        rcases List.mem_cons.mp hx with rfl | hx
        · exact (chain_built_iff f _).mp ⟨fwdr, hc⟩
        · exact h x hx
      · intro h x hx
        exact h x (by simp [hx])

theorem ruleSelector_error_iff {D E : Type} (f : Factories D E) (r : RuleConf) (err : E) :
    ruleSelector f r = .error err ↔ RuleFailure f r err := by
  rw [RuleFailure, ← forwardLoop_error_iff f r.Forward [] err, ruleSelector]
  cases forwardLoop f r.Forward [] <;> simp

theorem ruleSelector_ok_iff {D E : Type} (f : Factories D E) (r : RuleConf) :
    (∃ S, ruleSelector f r = .ok S) ↔ RuleBuilt f r := by
  rw [RuleBuilt, ← forwardLoop_ok_iff f r.Forward [], ruleSelector]
  cases forwardLoop f r.Forward [] <;> simp

theorem rulesLoop_error_iff {D E : Type} (lib : GoLib) (f : Factories D E)
    (rules : List RuleConf) (rd0 : RuleDialer D) (err : E) :
    rulesLoop lib f rules rd0 = .error err ↔ FirstFailure f rules err := by
  induction rules generalizing rd0 with
  | nil => simp [rulesLoop, FirstFailure]
  | cons r rules ih =>
    rw [rulesLoop]
    cases hs : ruleSelector f r with
    | error e =>
      constructor
      · intro h
        simp only [Except.error.injEq] at h
        exact ⟨[], rules, r, rfl, by simp, (ruleSelector_error_iff f r err).mp (by rw [hs, h])⟩
      · rintro ⟨before, after, r0, hdec, hb, hfail⟩
        cases before with
        | nil =>
          simp only [List.nil_append, List.cons.injEq] at hdec
          have h2 := (ruleSelector_error_iff f r0 err).mpr hfail
          rw [← hdec.1, hs] at h2
          simpa using h2
        | cons b before =>
          simp only [List.cons_append, List.cons.injEq] at hdec
          obtain ⟨S, hS⟩ := (ruleSelector_ok_iff f b).mpr (hb b (by simp))
          rw [← hdec.1, hs] at hS
          simp at hS
    | ok S =>
      simp only []
      rw [ih]
      constructor
      · rintro ⟨before, after, r0, hdec, hb, hfail⟩
        refine ⟨r :: before, after, r0, by rw [hdec, List.cons_append], ?_, hfail⟩
        intro x hx
        rcases List.mem_cons.mp hx with rfl | hx
        · exact (ruleSelector_ok_iff f _).mp ⟨S, hs⟩
        · exact hb x hx
      · rintro ⟨before, after, r0, hdec, hb, hfail⟩
        cases before with
        | nil =>
          simp only [List.nil_append, List.cons.injEq] at hdec
          have h2 := (ruleSelector_error_iff f r0 err).mpr hfail
          rw [← hdec.1, hs] at h2
          simp at h2
        | cons b before =>
          simp only [List.cons_append, List.cons.injEq] at hdec
          exact ⟨before, after, r0, hdec.2, fun x hx => hb x (by simp [hx]), hfail⟩

theorem rulesLoop_ok_iff {D E : Type} (lib : GoLib) (f : Factories D E)
    (rules : List RuleConf) (rd0 : RuleDialer D) :
    (∃ rd, rulesLoop lib f rules rd0 = .ok rd) ↔ ∀ r ∈ rules, RuleBuilt f r := by
  constructor
  · rintro ⟨rd, h⟩
    induction rules generalizing rd0 with
    | nil => simp
    | cons r rules ih =>
      rw [rulesLoop] at h
      cases hs : ruleSelector f r with
      | error e => simp [hs] at h
      | ok S =>
        simp only [hs] at h
        intro x hx
        rcases List.mem_cons.mp hx with rfl | hx
        · exact (ruleSelector_ok_iff f _).mp ⟨S, hs⟩
        · exact ih _ h x hx
  · intro h
    exact rulesLoop_ok lib f rules rd0 (fun r hr => (ruleSelector_ok_iff f r).mpr (h r hr))

theorem forwardLoop_forall₂ {D E : Type} (f : Factories D E) (chains : List String)
    (ds acc : List (Option D))
    (h : List.Forall₂ (fun chain d => foldChain f (Split chain ',') = .ok d) chains ds) :
    forwardLoop f chains acc = .ok (acc ++ ds) := by
  induction h generalizing acc with
  | nil => simp [forwardLoop]
  | cons hd _ ih =>
    rw [forwardLoop, chainLoop_eq_foldChain, hd]
    simp only []
    rw [ih, List.append_assoc]
    rfl

/-! ## The text returned by `Addr` -/

theorem Addr_ne_RULES {D R U : Type} (m : DialerMethods D R U) (rd : RuleDialer D) :
    Addr m rd ≠ .ret "RULES" := by
  unfold Addr
  cases rd.gDialer with
  | none => simp
  | some d =>
    intro h
    injection h with h
    have h2 := congrArg String.data h
    simp [String.data_append] at h2

/-! ## Resolution: the theorems -/

/-- C1: exact-IP priority.  When the host of the destination parses as a
literal IP and the IP table holds the canonical string of that IP with the
selector `S`, `NextDialer` returns `S`, whatever the CIDR table, its
enumeration and the domain table are. -/
theorem exact_ip_priority {D : Type} (lib : GoLib) (rd : RuleDialer D)
    (scan : List (IPNet × D)) (dstAddr host port : String) (ip : NetIP) (S : D)
    (hsplit : lib.SplitHostPort dstAddr = some (host, port))
    (hparse : lib.ParseIP host = some ip)
    (hentry : rd.ipMap (lib.IPString ip) = some S) :
    NextDialer lib rd scan dstAddr = some S := by
  simp [NextDialer, ipBranch, hsplit, hparse, hentry]

/-- Witness of C1 at `9.9.9.9:53`. -/
theorem exact_ip_priority_witness :
    goLib.SplitHostPort "9.9.9.9:53" = some ("9.9.9.9", "53")
      ∧ NextDialer goLib exampleDialer exampleDialer.cidrMap "9.9.9.9:53" = some 3 :=
  ⟨by decide,
    exact_ip_priority goLib exampleDialer exampleDialer.cidrMap "9.9.9.9:53" "9.9.9.9" "53"
      [0, 0, 0, 0, 0, 0, 0, 0, 0, 0, 255, 255, 9, 9, 9, 9] 3 (by decide) (by decide) (by decide)⟩

/-- C3: CIDR match.  When the host is a literal IP without exact entry in the
IP table and some registered block contains it, `NextDialer` returns the
selector of a registered block that contains the IP, for every enumeration of
the CIDR table; when one block only contains the IP, it returns the selector
of that block. -/
theorem cidr_match {D : Type} (lib : GoLib) (rd : RuleDialer D)
    (scan : List (IPNet × D)) (dstAddr host port : String) (ip : NetIP)
    (hsplit : lib.SplitHostPort dstAddr = some (host, port))
    (hparse : lib.ParseIP host = some ip)
    (hnoip : rd.ipMap (lib.IPString ip) = none)
    (hscan : scan.Perm rd.cidrMap)
    (hin : ∃ e ∈ rd.cidrMap, lib.Contains e.1 ip = true) :
    (∃ e ∈ rd.cidrMap, lib.Contains e.1 ip = true ∧ NextDialer lib rd scan dstAddr = some e.2)
      ∧ (∀ e ∈ rd.cidrMap, lib.Contains e.1 ip = true →
          (∀ e' ∈ rd.cidrMap, lib.Contains e'.1 ip = true → e' = e) →
          NextDialer lib rd scan dstAddr = some e.2) := by
  have hin' : ∃ e ∈ scan, lib.Contains e.1 ip = true := by
    obtain ⟨e, hmem, hc⟩ := hin
    exact ⟨e, hscan.mem_iff.mpr hmem, hc⟩
  obtain ⟨e, hmem, hc, hr⟩ := cidrRange_some lib ip scan hin'
  have hres : NextDialer lib rd scan dstAddr = some e.2 := by
    simp [NextDialer, ipBranch, hsplit, hparse, hnoip, hr]
  refine ⟨⟨e, hscan.mem_iff.mp hmem, hc, hres⟩, ?_⟩
  intro e0 _ _ huniq
  rw [hres, huniq e (hscan.mem_iff.mp hmem) hc]

/-- Witness of C3 at `10.1.2.3:443`, which lies in both blocks of `exampleDialer`. -/
theorem cidr_match_witness :
    ∃ e ∈ exampleDialer.cidrMap,
      goLib.Contains e.1 [0, 0, 0, 0, 0, 0, 0, 0, 0, 0, 255, 255, 10, 1, 2, 3] = true
        ∧ NextDialer goLib exampleDialer exampleDialer.cidrMap.reverse "10.1.2.3:443" = some e.2 :=
  (cidr_match goLib exampleDialer exampleDialer.cidrMap.reverse "10.1.2.3:443" "10.1.2.3" "443"
    [0, 0, 0, 0, 0, 0, 0, 0, 0, 0, 255, 255, 10, 1, 2, 3] (by decide) (by decide) (by decide)
    (List.reverse_perm _) ⟨(⟨[10, 0, 0, 0], [255, 0, 0, 0]⟩, 4), by decide, by decide⟩).1

/-- C4: the most general registered suffix wins.  When the host is not a
literal IP, `NextDialer` returns the selector of the first name, in the order
of `labelSuffixes` (the last two labels first, the whole host last: the list
is sorted by length, `labelSuffixes_sorted`), that is a key of the domain
table. -/
theorem general_suffix_wins {D : Type} (lib : GoLib) (rd : RuleDialer D)
    (scan : List (IPNet × D)) (dstAddr host port : String)
    (pre post : List String) (d : String) (S : D)
    (hsplit : lib.SplitHostPort dstAddr = some (host, port))
    (hparse : lib.ParseIP host = none)
    (hsuf : labelSuffixes host = pre ++ d :: post)
    (hpre : ∀ x ∈ pre, rd.domainMap x = none)
    (hd : rd.domainMap d = some S) :
    NextDialer lib rd scan dstAddr = some S := by
  have hip : ipBranch lib rd scan host = none := by simp [ipBranch, hparse]
  rw [NextDialer_domain lib rd scan dstAddr host port hsplit hip, hsuf,
    findSome_first rd.domainMap pre post d S hpre hd]

/-- Witness of C4: with `example.com → 1` and `a.example.com → 2`, the
destination `sub.a.example.com:443` resolves to `1`. -/
theorem general_suffix_wins_witness :
    labelSuffixes "sub.a.example.com" = ["example.com", "a.example.com", "sub.a.example.com"]
      ∧ exampleDialer.domainMap "a.example.com" = some 2
      ∧ NextDialer goLib exampleDialer exampleDialer.cidrMap "sub.a.example.com:443" = some 1 :=
  ⟨by decide, by decide,
    general_suffix_wins goLib exampleDialer exampleDialer.cidrMap "sub.a.example.com:443"
      "sub.a.example.com" "443" [] ["a.example.com", "sub.a.example.com"] "example.com" 1
      (by decide) (by decide) (by decide) (by simp) (by decide)⟩

/-- C7: fallback on no match.  When the destination splits and its host has
no entry in the IP table under its canonical string, lies in no registered
block and has no suffix of two labels or more in the domain table,
`NextDialer` returns `gDialer`. -/
theorem fallback_on_no_match {D : Type} (lib : GoLib) (rd : RuleDialer D)
    (scan : List (IPNet × D)) (dstAddr host port : String)
    (hsplit : lib.SplitHostPort dstAddr = some (host, port))
    (hscan : scan.Perm rd.cidrMap)
    (hnoip : ∀ ip, lib.ParseIP host = some ip → rd.ipMap (lib.IPString ip) = none)
    (hnocidr : ∀ ip, lib.ParseIP host = some ip →
      ∀ e ∈ rd.cidrMap, lib.Contains e.1 ip = false)
    (hnodom : ∀ d ∈ labelSuffixes host, rd.domainMap d = none) :
    NextDialer lib rd scan dstAddr = rd.gDialer := by
  have hip : ipBranch lib rd scan host = none := by
    unfold ipBranch
    cases hparse : lib.ParseIP host with
    | none => rfl
    | some ip =>
      simp only [hnoip ip hparse]
      exact cidrRange_none lib ip scan
        (fun e he => hnocidr ip hparse e (hscan.mem_iff.mp he))
  rw [NextDialer_domain lib rd scan dstAddr host port hsplit hip,
    findSome_none rd.domainMap _ hnodom]

/-- Witness of C7 at `8.8.8.8:53`, which matches no entry of `exampleDialer`. -/
theorem fallback_on_no_match_witness :
    NextDialer goLib exampleDialer exampleDialer.cidrMap "8.8.8.8:53" = some 0 :=
  have hp : goLib.ParseIP "8.8.8.8" = some [0, 0, 0, 0, 0, 0, 0, 0, 0, 0, 255, 255, 8, 8, 8, 8] := by
    decide
  fallback_on_no_match goLib exampleDialer exampleDialer.cidrMap "8.8.8.8:53" "8.8.8.8" "53"
    (by decide) (List.Perm.refl _)
    (fun ip h => by rw [hp] at h; cases h; decide)
    (fun ip h => by rw [hp] at h; cases h; decide)
    (by decide)

/-- C8: learning with an empty IP is a no-op.  `AddDomainIP(domain, "")`
returns the state unchanged and a nil error. -/
theorem learn_empty_ip {D : Type} (lib : GoLib) (rd : RuleDialer D) (domain : String) :
    AddDomainIP lib rd domain "" = (rd, none) := by
  simp [AddDomainIP]

/-- C9: a destination that does not split resolves to the fallback.  The
result is `gDialer` for all contents of the three tables and every enumeration
of the CIDR table, and `NextDialer` has no error result. -/
theorem unsplittable_fallback {D : Type} (lib : GoLib) (gDialer : Option D)
    (domainMap ipMap : String → Option D) (cidrMap scan : List (IPNet × D))
    (dstAddr : String) (hsplit : lib.SplitHostPort dstAddr = none) :
    NextDialer lib
      { gDialer := gDialer, domainMap := domainMap, ipMap := ipMap, cidrMap := cidrMap }
      scan dstAddr = gDialer := by
  simp [NextDialer, hsplit]

/-- Witness of C9 at `example.com`, a destination without port. -/
theorem unsplittable_fallback_witness :
    goLib.SplitHostPort "example.com" = none
      ∧ NextDialer goLib
          { gDialer := some 0, domainMap := exampleDialer.domainMap,
            ipMap := exampleDialer.ipMap, cidrMap := exampleDialer.cidrMap }
          exampleDialer.cidrMap "example.com" = some 0 :=
  ⟨by decide,
    unsplittable_fallback goLib (some 0) exampleDialer.domainMap exampleDialer.ipMap
      exampleDialer.cidrMap exampleDialer.cidrMap "example.com" (by decide)⟩

/-! ## Learning: the theorems -/

/-- C6: the state after `AddDomainIP(domain, ip)` for a non-empty `ip`.  When
some suffix of the lower-cased domain is a key of the domain table, the IP
table maps `ip` to the selector of the longest such suffix (the last key in
`labelSuffixes`) and every other key of the IP table, the domain table, the
CIDR table and the fallback are those of the state before; when no suffix is
a key the state is unchanged.  The error is nil in both cases, and the two
cases are all the cases: a list with a key has a last key. -/
theorem learn_post_state {D : Type} (lib : GoLib) (rd : RuleDialer D) (domain ip : String)
    (hdot : ∀ c, lib.unicodeToLower c = '.' ↔ c = '.') (hne : ip ≠ "") :
    (∀ (pre post : List String) (d : String) (S : D),
        labelSuffixes (ToLower lib domain) = pre ++ d :: post →
        rd.domainMap d = some S → (∀ x ∈ post, rd.domainMap x = none) →
        (AddDomainIP lib rd domain ip).2 = none
          ∧ (AddDomainIP lib rd domain ip).1.ipMap ip = some S
          ∧ (∀ k, k ≠ ip → (AddDomainIP lib rd domain ip).1.ipMap k = rd.ipMap k)
          ∧ (AddDomainIP lib rd domain ip).1.domainMap = rd.domainMap
          ∧ (AddDomainIP lib rd domain ip).1.cidrMap = rd.cidrMap
          ∧ (AddDomainIP lib rd domain ip).1.gDialer = rd.gDialer)
      ∧ ((∀ x ∈ labelSuffixes (ToLower lib domain), rd.domainMap x = none) →
          AddDomainIP lib rd domain ip = (rd, none))
      ∧ ((∃ x ∈ labelSuffixes (ToLower lib domain), rd.domainMap x ≠ none) →
          ∃ (pre post : List String) (d : String) (S : D),
            labelSuffixes (ToLower lib domain) = pre ++ d :: post
              ∧ rd.domainMap d = some S ∧ ∀ x ∈ post, rd.domainMap x = none) := by
  refine ⟨?_, ?_, exists_last_some rd.domainMap _⟩
  · intro pre post d S hsuf hd hpost
    rw [AddDomainIP_longest lib hdot rd domain ip hne pre post d S hsuf hd hpost]
    refine ⟨rfl, by simp [Store], ?_, rfl, rfl, rfl⟩
    intro k hk
    simp [Store, hk]
  · intro hnone
    rw [AddDomainIP_eq lib hdot rd domain ip hne,
      findSome_none rd.domainMap _ (fun x hx => hnone x (List.mem_reverse.mp hx))]

/-- Witness of C6: learning `1.2.3.4` for `Sub.A.Example.com` binds it to the
selector `2` of `a.example.com`. -/
theorem learn_post_state_witness :
    (AddDomainIP goLib exampleDialer "Sub.A.Example.com" "1.2.3.4").1.ipMap "1.2.3.4" = some 2 :=
  ((learn_post_state goLib exampleDialer "Sub.A.Example.com" "1.2.3.4" toLower_dot
      (by decide)).1 ["example.com"] ["sub.a.example.com"] "a.example.com" 2
      (by decide) (by decide) (by decide)).2.1

/-- C5, as stated, fails for a literal IP that is not in canonical form:
after `AddDomainIP("sub.a.example.com", "0:0:0:0:0:0:0:1")` the IP table holds
the key `0:0:0:0:0:0:0:1`, while `NextDialer` looks up `::1`; both the
destination `[0:0:0:0:0:0:0:1]:443` and the text `0:0:0:0:0:0:0:1:443`
resolve to the fallback `0`, not to the selector `2` of `a.example.com`. -/
theorem learn_then_resolve_counterexample :
    "0:0:0:0:0:0:0:1" ≠ ""
      ∧ goLib.ParseIP "0:0:0:0:0:0:0:1" = some [0, 0, 0, 0, 0, 0, 0, 0, 0, 0, 0, 0, 0, 0, 0, 1]
      ∧ goLib.IPString [0, 0, 0, 0, 0, 0, 0, 0, 0, 0, 0, 0, 0, 0, 0, 1] = "::1"
      ∧ labelSuffixes (ToLower goLib "sub.a.example.com")
          = ["example.com", "a.example.com", "sub.a.example.com"]
      ∧ exampleDialer.domainMap "a.example.com" = some 2
      ∧ exampleDialer.domainMap "sub.a.example.com" = none
      ∧ (AddDomainIP goLib exampleDialer "sub.a.example.com" "0:0:0:0:0:0:0:1").1.ipMap
          "0:0:0:0:0:0:0:1" = some 2
      ∧ goLib.SplitHostPort "[0:0:0:0:0:0:0:1]:443" = some ("0:0:0:0:0:0:0:1", "443")
      ∧ NextDialer goLib
          (AddDomainIP goLib exampleDialer "sub.a.example.com" "0:0:0:0:0:0:0:1").1
          exampleDialer.cidrMap "[0:0:0:0:0:0:0:1]:443" = some 0
      ∧ NextDialer goLib
          (AddDomainIP goLib exampleDialer "sub.a.example.com" "0:0:0:0:0:0:0:1").1
          exampleDialer.cidrMap "0:0:0:0:0:0:0:1:443" = some 0 := by
  decide

/-- C5, amended: learn then resolve, for an IP in canonical form.  When some
suffix of the lower-cased domain is a key of the domain table and `ip` is a
non-empty literal IP equal to its own canonical string, after
`AddDomainIP(domain, ip)` the IP table holds the canonical string with the
selector of the longest registered suffix, and `NextDialer` on a destination
of host `ip` returns that selector. -/
theorem learn_then_resolve {D : Type} (lib : GoLib) (rd : RuleDialer D)
    (scan : List (IPNet × D)) (domain ip port dstAddr : String) (a : NetIP)
    (pre post : List String) (d : String) (S : D)
    (hdot : ∀ c, lib.unicodeToLower c = '.' ↔ c = '.') (hne : ip ≠ "")
    (hparse : lib.ParseIP ip = some a) (hcanon : lib.IPString a = ip)
    (hsplit : lib.SplitHostPort dstAddr = some (ip, port))
    (hsuf : labelSuffixes (ToLower lib domain) = pre ++ d :: post)
    (hd : rd.domainMap d = some S) (hpost : ∀ x ∈ post, rd.domainMap x = none) :
    (AddDomainIP lib rd domain ip).1.ipMap (lib.IPString a) = some S
      ∧ NextDialer lib (AddDomainIP lib rd domain ip).1 scan dstAddr = some S := by
  have hentry : (AddDomainIP lib rd domain ip).1.ipMap (lib.IPString a) = some S := by
    rw [AddDomainIP_longest lib hdot rd domain ip hne pre post d S hsuf hd hpost, hcanon]
    simp [Store]
  refine ⟨hentry, ?_⟩
  simp [NextDialer, ipBranch, hsplit, hparse, hentry]

/-- Witness of C5: with `example.com → 1` and `a.example.com → 2`, learning
`1.2.3.4` for `sub.a.example.com` makes `1.2.3.4:443` resolve to `2`. -/
theorem learn_then_resolve_witness :
    NextDialer goLib (AddDomainIP goLib exampleDialer "sub.a.example.com" "1.2.3.4").1
      exampleDialer.cidrMap "1.2.3.4:443" = some 2 :=
  (learn_then_resolve goLib exampleDialer exampleDialer.cidrMap "sub.a.example.com" "1.2.3.4"
    "443" "1.2.3.4:443" [0, 0, 0, 0, 0, 0, 0, 0, 0, 0, 255, 255, 1, 2, 3, 4]
    ["example.com"] ["sub.a.example.com"] "a.example.com" 2 toLower_dot
    (by decide) (by decide) (by decide) (by decide) (by decide) (by decide) (by decide)).2

/-! ## Registration: the theorems -/

/-- C2, as stated, fails for a listed IP that is not in canonical form: the
second rule of `exampleRules`, of selector `2`, lists `0:0:0:0:0:0:0:1`, which
is a literal IP, and is the last rule to do so; `NewRuleDialer` stores the
string as written while `NextDialer` looks up `::1`, so the destination
`[0:0:0:0:0:0:0:1]:443` (and the text `0:0:0:0:0:0:0:1:443`, which does not
split) resolves to the fallback `0`. -/
theorem registered_ip_counterexample :
    goLib.ParseIP "0:0:0:0:0:0:0:1" = some [0, 0, 0, 0, 0, 0, 0, 0, 0, 0, 0, 0, 0, 0, 0, 1]
      ∧ (exampleRules.map (fun r => decide ("0:0:0:0:0:0:0:1" ∈ r.IP))) = [false, true]
      ∧ (exampleRules.map (fun r => (ruleSelector exampleFactories r).toOption))
          = [some 1, some 2]
      ∧ (NewRuleDialer goLib exampleFactories exampleRules (some 0)).toOption.isSome = true
      ∧ exampleBuilt.ipMap "0:0:0:0:0:0:0:1" = some 2
      ∧ goLib.SplitHostPort "[0:0:0:0:0:0:0:1]:443" = some ("0:0:0:0:0:0:0:1", "443")
      ∧ NextDialer goLib exampleBuilt exampleBuilt.cidrMap "[0:0:0:0:0:0:0:1]:443" = some 0
      ∧ NextDialer goLib exampleBuilt exampleBuilt.cidrMap "0:0:0:0:0:0:0:1:443" = some 0 := by
  decide

/-- C2, amended: end-to-end registration of an exact IP in canonical form.
When `NewRuleDialer` returns `rd`, the rule `r` of selector `S` is the last
rule listing the string `ip`, and `ip` is a literal IP equal to its own
canonical string, `NextDialer` on a destination of host `ip` returns `S`,
whatever CIDR and domain rules the list contains. -/
theorem registered_ip_resolves {D E : Type} (lib : GoLib) (f : Factories D E)
    (rules pre post : List RuleConf) (r : RuleConf) (gDialer : Option D) (rd : RuleDialer D)
    (scan : List (IPNet × D)) (ip port dstAddr : String) (a : NetIP) (S : D)
    (hnew : NewRuleDialer lib f rules gDialer = .ok rd)
    (hrules : rules = pre ++ r :: post) (hmem : ip ∈ r.IP)
    (hlast : ∀ r' ∈ post, ip ∉ r'.IP) (hsel : ruleSelector f r = .ok S)
    (hparse : lib.ParseIP ip = some a) (hcanon : lib.IPString a = ip)
    (hsplit : lib.SplitHostPort dstAddr = some (ip, port)) :
    NextDialer lib rd scan dstAddr = some S := by
  subst hrules
  have hentry : rd.ipMap (lib.IPString a) = some S := by
    rw [hcanon]
    exact rulesLoop_ipMap_last lib f pre post r _ rd ip S hnew hmem hlast hsel
  simp [NextDialer, ipBranch, hsplit, hparse, hentry]

/-- Witness of C2: `1.2.3.4` is listed by both rules of `exampleRules`, and
`1.2.3.4:443` resolves to the selector `2` of the second. -/
theorem registered_ip_resolves_witness :
    NextDialer goLib exampleBuilt exampleBuilt.cidrMap.reverse "1.2.3.4:443" = some 2 :=
  registered_ip_resolves goLib exampleFactories exampleRules (exampleRules.take 1) []
    { Forward := ["http://10.0.0.3:8080"], Strategy := "ha",
      CheckWebSite := "www.apple.com:443", CheckDuration := 2,
      Domain := ["a.example.com"], IP := ["1.2.3.4", "0:0:0:0:0:0:0:1"],
      CIDR := ["10.1.0.0/16"] }
    (some 0) exampleBuilt exampleBuilt.cidrMap.reverse "1.2.3.4" "443" "1.2.3.4:443"
    [0, 0, 0, 0, 0, 0, 0, 0, 0, 0, 255, 255, 1, 2, 3, 4] 2
    rfl (by decide) (by decide) (by simp) rfl (by decide) (by decide) (by decide)

/-- C10: registration stores the domain keys lower-cased.  In the table built
by `NewRuleDialer` every key is equal to its own lower-casing, and for every
domain `d` listed by a rule the key `ToLower d` is mapped to the selector of
the last rule that lists a domain of that lower-cased form. -/
theorem domain_keys_lowercased {D E : Type} (lib : GoLib) (f : Factories D E)
    (rules : List RuleConf) (gDialer : Option D) (rd : RuleDialer D)
    (hidem : ∀ c, lib.unicodeToLower (lib.unicodeToLower c) = lib.unicodeToLower c)
    (hnew : NewRuleDialer lib f rules gDialer = .ok rd) :
    (∀ k, rd.domainMap k ≠ none → ToLower lib k = k)
      ∧ (∀ (pre post : List RuleConf) (r : RuleConf) (d : String) (S : D),
          rules = pre ++ r :: post → d ∈ r.Domain →
          (∀ r' ∈ post, ∀ d' ∈ r'.Domain, ToLower lib d' ≠ ToLower lib d) →
          ruleSelector f r = .ok S → rd.domainMap (ToLower lib d) = some S) := by
  constructor
  · exact rulesLoop_keys_lower lib f hidem rules _ rd hnew (fun k hk => absurd rfl hk)
  · intro pre post r d S hrules hmem hlast hsel
    subst hrules
    refine rulesLoop_domainMap_last lib f pre post r _ rd _ S hnew
      (List.mem_map.mpr ⟨d, hmem, rfl⟩) ?_ hsel
    intro r' hr' hk
    obtain ⟨d', hd', heq⟩ := List.mem_map.mp hk
    exact hlast r' hr' d' hd' heq

/-- Witness of C10: the rule of `exampleRules` for `Example.COM` is stored
under `example.com`, and `Example.COM` is not a key. -/
theorem domain_keys_lowercased_witness :
    ToLower goLib "Example.COM" = "example.com"
      ∧ exampleBuilt.domainMap "example.com" = some 1
      ∧ exampleBuilt.domainMap "Example.COM" = none :=
  ⟨by decide,
    (domain_keys_lowercased goLib exampleFactories exampleRules (some 0) exampleBuilt
      toLower_idem rfl).2 [] (exampleRules.drop 1)
      { Forward := ["socks5://10.0.0.1:1080,ss://10.0.0.2:8443"], Strategy := "rr",
        CheckWebSite := "www.apple.com:443", CheckDuration := 1,
        Domain := ["Example.COM"], IP := ["1.2.3.4"], CIDR := ["10.0.0.0/8", "bogus"] }
      "Example.COM" 1 (by decide) (by decide) (by decide) rfl,
    by decide⟩

/-! ## The methods: the theorems -/

/-- C14: `Dial` and `DialUDP` are pure delegation.  When `NextDialer(addr)`
is the dialer `d`, `Dial(network, addr)` returns the result of
`d.Dial(network, addr)` and `DialUDP(network, addr)` the result of
`d.DialUDP(network, addr)`, unchanged and with the same arguments; when
`NextDialer(addr)` is nil both calls panic, as the call on the nil interface
does. -/
theorem dial_delegates {D R U : Type} (lib : GoLib) (m : DialerMethods D R U)
    (rd : RuleDialer D) (scan : List (IPNet × D)) (network addr : String) :
    (∀ d, NextDialer lib rd scan addr = some d →
        Dial lib m rd scan network addr = .ret (m.Dial d network addr)
          ∧ DialUDP lib m rd scan network addr = .ret (m.DialUDP d network addr))
      ∧ (NextDialer lib rd scan addr = none →
          Dial lib m rd scan network addr = .nilPanic
            ∧ DialUDP lib m rd scan network addr = .nilPanic) := by
  constructor
  · intro d hd
    simp [Dial, DialUDP, hd]
  · intro hd
    simp [Dial, DialUDP, hd]

/-- Witness of C14: `sub.a.example.com:443` resolves to the dialer `1` of
`exampleDialer`, and `Dial` returns what that dialer returns. -/
theorem dial_delegates_witness :
    NextDialer goLib exampleDialer exampleDialer.cidrMap "sub.a.example.com:443" = some 1
      ∧ Dial goLib exampleMethods exampleDialer exampleDialer.cidrMap "tcp"
          "sub.a.example.com:443" = .ret (1, "tcp", "sub.a.example.com:443") :=
  ⟨by decide,
    ((dial_delegates goLib exampleMethods exampleDialer exampleDialer.cidrMap "tcp"
      "sub.a.example.com:443").1 1 (by decide)).1⟩

/-- C15 at a concrete state: the comment of `Addr` promises the constant
`RULES`, while the body returns the text `RULE DIALER, DEFAULT: ` followed by
the address of the fallback; on `exampleDialer`, whose fallback has the
address `DIRECT`, the result is `RULE DIALER, DEFAULT: DIRECT`. -/
theorem addr_is_not_RULES :
    Addr exampleMethods exampleDialer = .ret "RULE DIALER, DEFAULT: DIRECT"
      ∧ Addr exampleMethods exampleDialer ≠ .ret "RULES" := by
  decide

/-- C19: learning never changes how domain names resolve.  For a destination
that does not split, or whose host is not a literal IP, `NextDialer` returns
the same dialer before and after any call `AddDomainIP(domain, ip)`. -/
theorem learn_keeps_domain_resolution {D : Type} (lib : GoLib) (rd : RuleDialer D)
    (scan : List (IPNet × D)) (domain ip dstAddr : String)
    (hdst : lib.SplitHostPort dstAddr = none
      ∨ ∃ host port, lib.SplitHostPort dstAddr = some (host, port) ∧ lib.ParseIP host = none) :
    NextDialer lib (AddDomainIP lib rd domain ip).1 scan dstAddr
      = NextDialer lib rd scan dstAddr := by
  have hframe := AddDomainIP_frame lib rd domain ip
  rcases hdst with hnone | ⟨host, port, hsplit, hparse⟩
  · simp [NextDialer, hnone, hframe.2.1]
  · have h1 : ipBranch lib (AddDomainIP lib rd domain ip).1 scan host = none := by
      simp [ipBranch, hparse]
    have h2 : ipBranch lib rd scan host = none := by simp [ipBranch, hparse]
    rw [NextDialer_domain lib _ scan dstAddr host port hsplit h1,
      NextDialer_domain lib rd scan dstAddr host port hsplit h2, hframe.1, hframe.2.1]

/-- Witness of C19: after learning `9.9.9.9` for `sub.a.example.com`, which
overwrites the entry of `9.9.9.9`, `sub.a.example.com:443` still resolves to `1`. -/
theorem learn_keeps_domain_resolution_witness :
    (AddDomainIP goLib exampleDialer "sub.a.example.com" "9.9.9.9").1.ipMap "9.9.9.9" = some 2
      ∧ NextDialer goLib (AddDomainIP goLib exampleDialer "sub.a.example.com" "9.9.9.9").1
          exampleDialer.cidrMap "sub.a.example.com:443" = some 1 :=
  ⟨by decide,
    (learn_keeps_domain_resolution goLib exampleDialer exampleDialer.cidrMap
      "sub.a.example.com" "9.9.9.9" "sub.a.example.com:443"
      (Or.inr ⟨"sub.a.example.com", "443", by decide, by decide⟩)).trans (by decide)⟩

/-! ## Numeric hosts and names without a dot: the theorems -/

/-- C16, as stated, fails when a key of the domain table is a suffix of the
host text: in `numericKeyDialer` the host `1.2.3.4` is a literal IP without
exact entry and in no registered block, the domain loop tries `3.4`, `2.3.4`
and `1.2.3.4`, and `NextDialer` returns the selector `6` of the key `1.2.3.4`
instead of the fallback `0`. -/
theorem numeric_host_counterexample :
    goLib.SplitHostPort "1.2.3.4:80" = some ("1.2.3.4", "80")
      ∧ goLib.ParseIP "1.2.3.4" = some [0, 0, 0, 0, 0, 0, 0, 0, 0, 0, 255, 255, 1, 2, 3, 4]
      ∧ goLib.IPString [0, 0, 0, 0, 0, 0, 0, 0, 0, 0, 255, 255, 1, 2, 3, 4] = "1.2.3.4"
      ∧ numericKeyDialer.ipMap "1.2.3.4" = none
      ∧ numericKeyDialer.cidrMap = []
      ∧ labelSuffixes "1.2.3.4" = ["3.4", "2.3.4", "1.2.3.4"]
      ∧ numericKeyDialer.gDialer = some 0
      ∧ NextDialer goLib numericKeyDialer numericKeyDialer.cidrMap "1.2.3.4:80" = some 6 := by
  decide

/-- C16, amended: the domain step on a numeric host.  When the host is a
literal IP without exact entry in the IP table and in no registered block,
the domain loop runs on the text of the host: `NextDialer` returns the
selector of the first suffix of two labels or more that is a key of the
domain table, and the fallback when no such suffix is a key; when the text of
the host has no dot the loop tries nothing and `NextDialer` returns the
fallback whatever the keys of the domain table are. -/
theorem numeric_host_domain_step {D : Type} (lib : GoLib) (rd : RuleDialer D)
    (scan : List (IPNet × D)) (dstAddr host port : String) (ip : NetIP)
    (hsplit : lib.SplitHostPort dstAddr = some (host, port))
    (hparse : lib.ParseIP host = some ip)
    (hnoip : rd.ipMap (lib.IPString ip) = none)
    (hscan : scan.Perm rd.cidrMap)
    (hnocidr : ∀ e ∈ rd.cidrMap, lib.Contains e.1 ip = false) :
    ((∀ d ∈ labelSuffixes host, rd.domainMap d = none) →
        NextDialer lib rd scan dstAddr = rd.gDialer)
      ∧ ('.' ∉ host.data → NextDialer lib rd scan dstAddr = rd.gDialer)
      ∧ (∀ (pre post : List String) (d : String) (S : D),
          labelSuffixes host = pre ++ d :: post → (∀ x ∈ pre, rd.domainMap x = none) →
          rd.domainMap d = some S → NextDialer lib rd scan dstAddr = some S) := by
  have hip : ipBranch lib rd scan host = none := by
    simp only [ipBranch, hparse, hnoip]
    exact cidrRange_none lib ip scan (fun e he => hnocidr e (hscan.mem_iff.mp he))
  have hnd := NextDialer_domain lib rd scan dstAddr host port hsplit hip
  refine ⟨?_, ?_, ?_⟩
  · intro hnone
    rw [hnd, findSome_none rd.domainMap _ hnone]
  · intro hdotless
    rw [hnd, labelSuffixes_of_no_dot host hdotless]
    rfl
  · intro pre post d S hsuf hpre hd
    rw [hnd, hsuf, findSome_first rd.domainMap pre post d S hpre hd]

/-- Witness of C16: the host `2001:db8::1` has no dot, and
`[2001:db8::1]:443` resolves to the fallback of `numericKeyDialer`. -/
theorem numeric_host_domain_step_witness :
    NextDialer goLib numericKeyDialer numericKeyDialer.cidrMap "[2001:db8::1]:443" = some 0 :=
  (numeric_host_domain_step goLib numericKeyDialer numericKeyDialer.cidrMap
    "[2001:db8::1]:443" "2001:db8::1" "443"
    [32, 1, 13, 184, 0, 0, 0, 0, 0, 0, 0, 0, 0, 0, 0, 1]
    (by decide) (by decide) (by decide) (List.Perm.refl _) (by decide)).2.1 (by decide)

/-- C17: keys without a dot are unreachable.  Two states that differ only in
the entries of the domain table whose key has no dot resolve every
destination alike and learn every pair (domain, ip) alike; and a destination
whose host has no dot and is not a literal IP resolves to the fallback. -/
theorem dotless_keys_unreachable {D : Type} (lib : GoLib) (rd rd' : RuleDialer D)
    (scan : List (IPNet × D))
    (hdot : ∀ c, lib.unicodeToLower c = '.' ↔ c = '.')
    (hg : rd'.gDialer = rd.gDialer) (hip : rd'.ipMap = rd.ipMap)
    (hkeys : ∀ k : String, '.' ∈ k.data → rd'.domainMap k = rd.domainMap k) :
    (∀ dstAddr, NextDialer lib rd' scan dstAddr = NextDialer lib rd scan dstAddr)
      ∧ (∀ domain ip, (AddDomainIP lib rd' domain ip).1.ipMap
          = (AddDomainIP lib rd domain ip).1.ipMap)
      ∧ (∀ dstAddr host port, lib.SplitHostPort dstAddr = some (host, port) →
          lib.ParseIP host = none → '.' ∉ host.data →
          NextDialer lib rd scan dstAddr = rd.gDialer) := by
  refine ⟨?_, ?_, ?_⟩
  · intro dstAddr
    rw [NextDialer_unfold, NextDialer_unfold]
    cases lib.SplitHostPort dstAddr with
    | none => exact hg
    | some hp =>
      obtain ⟨host, port⟩ := hp
      simp only [ipBranch_congr lib rd rd' scan host hip, hg]
      rw [findSome_congr rd'.domainMap rd.domainMap (labelSuffixes host)
        (fun d hd => hkeys d (dot_mem_of_mem_labelSuffixes host d hd))]
  · intro domain ip
    by_cases hne : ip = ""
    · simp [AddDomainIP, hne, hip]
    · rw [AddDomainIP_eq lib hdot rd' domain ip hne, AddDomainIP_eq lib hdot rd domain ip hne,
        findSome_congr rd'.domainMap rd.domainMap _
          (fun d hd => hkeys d
            (dot_mem_of_mem_labelSuffixes _ d (List.mem_reverse.mp hd)))]
      cases (labelSuffixes (ToLower lib domain)).reverse.findSome? rd.domainMap with
      | none => exact hip
      | some S => simp [hip]
  · intro dstAddr host port hsplit hparse hdotless
    have hb : ipBranch lib rd scan host = none := by simp [ipBranch, hparse]
    rw [NextDialer_domain lib rd scan dstAddr host port hsplit hb,
      labelSuffixes_of_no_dot host hdotless]
    rfl

/-- Witness of C17: in `dotlessKeyDialer` the key `localhost` has the selector
`9`, and `localhost:80` resolves to the fallback `0`. -/
theorem dotless_keys_unreachable_witness :
    dotlessKeyDialer.domainMap "localhost" = some 9
      ∧ exampleDialer.domainMap "localhost" = none
      ∧ NextDialer goLib exampleDialer exampleDialer.cidrMap "localhost:80"
          = NextDialer goLib dotlessKeyDialer exampleDialer.cidrMap "localhost:80"
      ∧ NextDialer goLib dotlessKeyDialer exampleDialer.cidrMap "localhost:80" = some 0 :=
  have h := dotless_keys_unreachable goLib dotlessKeyDialer exampleDialer
    exampleDialer.cidrMap toLower_dot rfl rfl
    (fun k hk => by
      have hne : k ≠ "localhost" := by
        rintro rfl
        exact absurd hk (by decide)
      simp [dotlessKeyDialer, Store, hne])
  ⟨by decide, by decide, h.1 "localhost:80",
    h.2.2 "localhost:80" "localhost" "80" (by decide) (by decide) (by decide)⟩

/-! ## Registration and case: the theorems -/

/-- C18, as stated, fails for an upper-case letter that `unicode.ToLower`
leaves unchanged: U+1D400 is such a letter, so the rule of `boldRules` for the
domain `x.` + U+1D400 is stored under that very text; the host of `boldDst` is
not a literal IP, its last label is that upper-case letter, and `NextDialer`
returns the selector `1` of the rule, not the fallback `0`. -/
theorem case_handling_counterexample :
    boldCapitalA.toNat = 0x1D400
      ∧ goLib.unicodeToLower boldCapitalA = boldCapitalA
      ∧ (NewRuleDialer goLib exampleFactories boldRules (some 0)).toOption.isSome = true
      ∧ (boldRules.map (fun r => decide (boldHost ∈ r.Domain))) = [true]
      ∧ boldBuilt.domainMap boldHost = some 1
      ∧ goLib.SplitHostPort boldDst = some (boldHost, "80")
      ∧ goLib.ParseIP boldHost = none
      ∧ (Split boldHost '.').getLast? = some (String.mk [boldCapitalA])
      ∧ boldBuilt.gDialer = some 0
      ∧ NextDialer goLib boldBuilt boldBuilt.cidrMap boldDst = some 1 := by
  decide

/-- C18, amended: case handling differs between `NextDialer` and
`AddDomainIP`.  In a state built by `NewRuleDialer`, a destination whose host
is not a literal IP and has, in its last label, a character that
`unicode.ToLower` changes (such as the letters `A`..`Z`) resolves to the
fallback; and for a domain `d` with a dot listed by a rule,
`AddDomainIP(d, ip)` with a non-empty `ip` binds `ip` to the selector stored
under `ToLower d`. -/
theorem case_handling_differs {D E : Type} (lib : GoLib) (f : Factories D E)
    (rules : List RuleConf) (gDialer : Option D) (rd : RuleDialer D)
    (hidem : ∀ c, lib.unicodeToLower (lib.unicodeToLower c) = lib.unicodeToLower c)
    (hdot : ∀ c, lib.unicodeToLower c = '.' ↔ c = '.')
    (hnew : NewRuleDialer lib f rules gDialer = .ok rd) :
    (∀ (scan : List (IPNet × D)) (dstAddr host port last : String) (c : Char),
        lib.SplitHostPort dstAddr = some (host, port) → lib.ParseIP host = none →
        (Split host '.').getLast? = some last → c ∈ last.data →
        lib.unicodeToLower c ≠ c → NextDialer lib rd scan dstAddr = rd.gDialer)
      ∧ (∀ r ∈ rules, ∀ d ∈ r.Domain, '.' ∈ d.data → ∀ ip : String, ip ≠ "" →
          ∃ S, rd.domainMap (ToLower lib d) = some S
            ∧ (AddDomainIP lib rd d ip).1.ipMap ip = some S) := by
  have hkeys := rulesLoop_keys_lower lib f hidem rules _ rd hnew (fun k hk => absurd rfl hk)
  constructor
  · intro scan dstAddr host port last c hsplit hparse hlast hc hup
    have hb : ipBranch lib rd scan host = none := by simp [ipBranch, hparse]
    rw [NextDialer_domain lib rd scan dstAddr host port hsplit hb, findSome_none]
    intro d hd
    obtain ⟨pre, hpre⟩ := last_label_of_mem_labelSuffixes host d last hlast hd
    have hcd : c ∈ d.data := by rw [hpre]; exact List.mem_append_right pre hc
    by_contra hkey
    exact ToLower_ne_of_mem lib d c hcd hup (hkeys d hkey)
  · intro r hr d hd hdotd ip hne
    have hsome : rd.domainMap (ToLower lib d) ≠ none :=
      rulesLoop_domainMap_some lib f rules _ rd _ hnew
        (Or.inr ⟨r, hr, List.mem_map.mpr ⟨d, hd, rfl⟩⟩)
    obtain ⟨S, hS⟩ := Option.ne_none_iff_exists'.mp hsome
    obtain ⟨pre, hpre⟩ := labelSuffixes_last (ToLower lib d) (dot_mem_ToLower lib hdot d hdotd)
    refine ⟨S, hS, ?_⟩
    rw [AddDomainIP_longest lib hdot rd d ip hne pre [] (ToLower lib d) S hpre hS (by simp)]
    simp [Store]

/-- Witness of C18: `exampleRules` lists `Example.COM`; `Example.COM:443`
resolves to the fallback `0`, while learning `5.6.7.8` for `Example.COM` binds
it to the selector `1` of that rule. -/
theorem case_handling_differs_witness :
    NextDialer goLib exampleBuilt exampleBuilt.cidrMap "Example.COM:443" = exampleBuilt.gDialer
      ∧ exampleBuilt.gDialer = some 0
      ∧ (AddDomainIP goLib exampleBuilt "Example.COM" "5.6.7.8").1.ipMap "5.6.7.8" = some 1
      ∧ ∃ S, exampleBuilt.domainMap (ToLower goLib "Example.COM") = some S
          ∧ (AddDomainIP goLib exampleBuilt "Example.COM" "5.6.7.8").1.ipMap "5.6.7.8" = some S :=
  have h := case_handling_differs goLib exampleFactories exampleRules (some 0) exampleBuilt
    toLower_idem toLower_dot rfl
  ⟨h.1 exampleBuilt.cidrMap "Example.COM:443" "Example.COM" "443" "COM" 'C'
      (by decide) (by decide) (by decide) (by decide) (by decide),
    by decide, by decide,
    h.2 _ (List.mem_cons_self _ _) "Example.COM" (by decide) (by decide) "5.6.7.8" (by decide)⟩

/-- C20: later rules override earlier ones.  In the tables built by
`NewRuleDialer`, an IP string listed by the rule `r` and by no later rule is
mapped to the selector of `r`, a domain of `r` whose lower-cased form is
listed by no later rule is mapped, under that form, to the selector of `r`,
and every string of `r.CIDR` that parses has an entry with the selector of
`r`: a key listed by two rules has the selector of the last one, and the keys
that a rule keeps all share its one selector. -/
theorem later_rules_override {D E : Type} (lib : GoLib) (f : Factories D E)
    (rules pre post : List RuleConf) (r : RuleConf) (gDialer : Option D) (rd : RuleDialer D)
    (S : D)
    (hnew : NewRuleDialer lib f rules gDialer = .ok rd)
    (hrules : rules = pre ++ r :: post)
    (hsel : ruleSelector f r = .ok S) :
    (∀ ip ∈ r.IP, (∀ r' ∈ post, ip ∉ r'.IP) → rd.ipMap ip = some S)
      ∧ (∀ d ∈ r.Domain, (∀ r' ∈ post, ∀ d' ∈ r'.Domain, ToLower lib d' ≠ ToLower lib d) →
          rd.domainMap (ToLower lib d) = some S)
      ∧ (∀ s ∈ r.CIDR, ∀ n, lib.ParseCIDR s = some n → (n, S) ∈ rd.cidrMap) := by
  subst hrules
  refine ⟨?_, ?_, ?_⟩
  · intro ip hmem hlast
    exact rulesLoop_ipMap_last lib f pre post r _ rd ip S hnew hmem hlast hsel
  · intro d hmem hlast
    refine rulesLoop_domainMap_last lib f pre post r _ rd _ S hnew
      (List.mem_map.mpr ⟨d, hmem, rfl⟩) ?_ hsel
    intro r' hr' hk
    obtain ⟨d', hd', heq⟩ := List.mem_map.mp hk
    exact hlast r' hr' d' hd' heq
  · intro s hs n hn
    rw [rulesLoop_cidrMap lib f _ _ rd hnew, cidrEntries_append, cidrEntries, hsel]
    simp only [List.nil_append, List.mem_append, List.mem_map, List.mem_filterMap]
    exact Or.inr (Or.inl ⟨n, ⟨s, hs, hn⟩, rfl⟩)

/-- Witness of C20: both rules of `exampleRules` list `1.2.3.4`, and the IP
table maps it to the selector `2` of the second rule; the domain of the first
rule, listed by no later rule, keeps the selector `1`. -/
theorem later_rules_override_witness :
    exampleBuilt.ipMap "1.2.3.4" = some 2
      ∧ exampleBuilt.domainMap "example.com" = some 1 :=
  ⟨(later_rules_override goLib exampleFactories exampleRules (exampleRules.take 1) []
      { Forward := ["http://10.0.0.3:8080"], Strategy := "ha",
        CheckWebSite := "www.apple.com:443", CheckDuration := 2,
        Domain := ["a.example.com"], IP := ["1.2.3.4", "0:0:0:0:0:0:0:1"],
        CIDR := ["10.1.0.0/16"] }
      (some 0) exampleBuilt 2 rfl (by decide) rfl).1 "1.2.3.4" (by decide) (by simp),
    by decide⟩

/-- C11: a string that is not a CIDR block is dropped in silence.  When every
URL of every chain of every rule is accepted by `DialerFromURL`,
`NewRuleDialer` returns a rule dialer; its CIDR table is `cidrEntries`: it has
as many entries as there are strings that parse, every entry is the block of
a string that parses with the selector of its rule, every string that parses
has its entry; and every domain and every IP of every rule is a key of its
table, whatever the CIDR strings of the rule are. -/
theorem bad_cidr_dropped {D E : Type} (lib : GoLib) (f : Factories D E)
    (rules : List RuleConf) (gDialer : Option D)
    (hwf : ∀ r ∈ rules, ∀ chain ∈ r.Forward, ∀ url ∈ Split chain ',', ∀ up,
      ∃ d, f.DialerFromURL url up = .ok d) :
    ∃ rd, NewRuleDialer lib f rules gDialer = .ok rd
      ∧ rd.cidrMap = cidrEntries lib f rules
      ∧ rd.cidrMap.length
          = (rules.map
              (fun r => (r.CIDR.filter (fun s => (lib.ParseCIDR s).isSome)).length)).sum
      ∧ (∀ e ∈ rd.cidrMap, ∃ r ∈ rules, ∃ s ∈ r.CIDR,
          lib.ParseCIDR s = some e.1 ∧ ruleSelector f r = .ok e.2)
      ∧ (∀ r ∈ rules, ∀ s ∈ r.CIDR, ∀ n, lib.ParseCIDR s = some n →
          ∃ S, ruleSelector f r = .ok S ∧ (n, S) ∈ rd.cidrMap)
      ∧ (∀ r ∈ rules, (∀ d ∈ r.Domain, rd.domainMap (ToLower lib d) ≠ none)
          ∧ (∀ ip ∈ r.IP, rd.ipMap ip ≠ none)) := by
  have hsel : ∀ r ∈ rules, ∃ S, ruleSelector f r = .ok S :=
    fun r hr => ruleSelector_ok f r (hwf r hr)
  obtain ⟨rd, hrd⟩ := rulesLoop_ok lib f rules
    { gDialer := gDialer, domainMap := fun _ => none, ipMap := fun _ => none, cidrMap := [] }
    hsel
  have hc : rd.cidrMap = cidrEntries lib f rules := by
    simpa using rulesLoop_cidrMap lib f rules _ rd hrd
  refine ⟨rd, hrd, hc, ?_, ?_, ?_, ?_⟩
  · rw [hc, cidrEntries_length lib f rules hsel]
  · intro e he
    rw [hc] at he
    exact mem_cidrEntries lib f rules e he
  · intro r hr s hs n hn
    obtain ⟨S, hS⟩ := hsel r hr
    exact ⟨S, hS, by rw [hc]; exact mem_cidrEntries_of_parse lib f rules r s n S hr hs hn hS⟩
  · intro r hr
    constructor
    · intro d hd
      exact rulesLoop_domainMap_some lib f rules _ rd _ hrd
        (Or.inr ⟨r, hr, List.mem_map.mpr ⟨d, hd, rfl⟩⟩)
    · intro ip hip
      exact rulesLoop_ipMap_some lib f rules _ rd _ hrd (Or.inr ⟨r, hr, hip⟩)

/-- Witness of C11: the first rule of `exampleRules` lists `bogus`, which is
not a CIDR block; the table built has the two blocks that parse and nothing
for `bogus`. -/
theorem bad_cidr_dropped_witness :
    goLib.ParseCIDR "bogus" = none
      ∧ cidrEntries goLib exampleFactories exampleRules
          = [(⟨[10, 0, 0, 0], [255, 0, 0, 0]⟩, 1), (⟨[10, 1, 0, 0], [255, 255, 0, 0]⟩, 2)]
      ∧ ∃ rd, NewRuleDialer goLib exampleFactories exampleRules (some 0) = .ok rd
          ∧ rd.cidrMap = cidrEntries goLib exampleFactories exampleRules
          ∧ rd.cidrMap.length
              = (exampleRules.map
                  (fun r => (r.CIDR.filter (fun s => (goLib.ParseCIDR s).isSome)).length)).sum
          ∧ (∀ e ∈ rd.cidrMap, ∃ r ∈ exampleRules, ∃ s ∈ r.CIDR,
              goLib.ParseCIDR s = some e.1 ∧ ruleSelector exampleFactories r = .ok e.2)
          ∧ (∀ r ∈ exampleRules, ∀ s ∈ r.CIDR, ∀ n, goLib.ParseCIDR s = some n →
              ∃ S, ruleSelector exampleFactories r = .ok S ∧ (n, S) ∈ rd.cidrMap)
          ∧ (∀ r ∈ exampleRules, (∀ d ∈ r.Domain, rd.domainMap (ToLower goLib d) ≠ none)
              ∧ (∀ ip ∈ r.IP, rd.ipMap ip ≠ none)) :=
  have hurl : ∀ r ∈ exampleRules, ∀ chain ∈ r.Forward, ∀ url ∈ Split chain ',', url ≠ "" := by
    decide
  ⟨by decide, by decide,
    bad_cidr_dropped goLib exampleFactories exampleRules (some 0)
      (fun r hr chain hc url hu up =>
        ⟨url.length + up.getD 0, by simp [exampleFactories, hurl r hr chain hc url hu]⟩)⟩

/-! ## The forwarder chains: the theorems -/

/-- C12: a URL that `DialerFromURL` refuses is fatal.  `NewRuleDialer` exits
through `log.Fatal(err)` exactly when `err` is the error of the first failing
call of `DialerFromURL` in the order of the rules, chains and hops; it returns
a rule dialer exactly when all the chains of all the rules are built, and
exits exactly when they are not: no rule dialer is returned for a rule list
with a refused URL. -/
theorem bad_endpoint_fatal {D E : Type} (lib : GoLib) (f : Factories D E)
    (rules : List RuleConf) (gDialer : Option D) :
    (∀ err, NewRuleDialer lib f rules gDialer = .error err ↔ FirstFailure f rules err)
      ∧ ((∃ rd, NewRuleDialer lib f rules gDialer = .ok rd) ↔ ∀ r ∈ rules, RuleBuilt f r)
      ∧ ((∃ err, NewRuleDialer lib f rules gDialer = .error err)
          ↔ ¬ ∀ r ∈ rules, RuleBuilt f r) := by
  have hok := rulesLoop_ok_iff lib f rules
    { gDialer := gDialer, domainMap := fun _ => none, ipMap := fun _ => none, cidrMap := [] }
  refine ⟨fun err => rulesLoop_error_iff lib f rules _ err, hok, ?_⟩
  rw [← hok]
  unfold NewRuleDialer
  cases rulesLoop lib f rules
    { gDialer := gDialer, domainMap := fun _ => none, ipMap := fun _ => none, cidrMap := [] }
    <;> simp

/-- Witness of C12: the last rule of `fatalRules` has an empty URL in its
second chain; `NewRuleDialer` exits with the error of that URL, which is the
first failing call. -/
theorem bad_endpoint_fatal_witness :
    NewRuleDialer goLib exampleFactories fatalRules (some 0) = .error "empty url"
      ∧ FirstFailure exampleFactories fatalRules "empty url" :=
  ⟨rfl, ((bad_endpoint_fatal goLib exampleFactories fatalRules (some 0)).1 "empty url").mp rfl⟩

/-- C13: the forwarder chain is a left fold.  When the left fold of
`DialerFromURL` over the URLs of every chain of the rule, started with no
upstream, is built, with the results `ds` in the order of `r.Forward`, the
selector of the rule is `NewStrategyDialer(r.Strategy, ds, r.CheckWebSite,
r.CheckDuration)`; in the fold the first hop has no upstream and every later
hop has the dialer built before it as upstream. -/
theorem chain_is_left_fold {D E : Type} (f : Factories D E) (r : RuleConf)
    (ds : List (Option D))
    (hds : List.Forall₂ (fun chain d => foldChain f (Split chain ',') = .ok d) r.Forward ds) :
    ruleSelector f r
        = .ok (f.NewStrategyDialer r.Strategy ds r.CheckWebSite r.CheckDuration)
      ∧ foldChain f [] = .ok none
      ∧ (∀ (urls : List String) (url : String) (fwdr : Option D) (d : D),
          foldChain f urls = .ok fwdr → f.DialerFromURL url fwdr = .ok d →
          foldChain f (urls ++ [url]) = .ok (some d)) := by
  refine ⟨?_, rfl, ?_⟩
  · rw [ruleSelector, forwardLoop_forall₂ f r.Forward ds [] hds]
    rfl
  · intro urls url fwdr d hu hd
    unfold foldChain at hu ⊢
    rw [List.foldl_append, hu]
    simp [hd]

/-- Witness of C13: for the chain `a,b,c` the dialer handed to the selector
factory is `DialerFromURL(c, DialerFromURL(b, DialerFromURL(a, nil)))`, and
the two chain dialers of `chainRule` are handed over in the order listed. -/
theorem chain_is_left_fold_witness :
    traceFactories.DialerFromURL "a" none = .ok "a"
      ∧ traceFactories.DialerFromURL "b" (some "a") = .ok "a > b"
      ∧ traceFactories.DialerFromURL "c" (some "a > b") = .ok "a > b > c"
      ∧ ruleSelector traceFactories chainRule = .ok "rr:a > b > c|d" :=
  ⟨rfl, rfl, rfl,
    (chain_is_left_fold traceFactories chainRule [some "a > b > c", some "d"]
      (List.Forall₂.cons rfl (List.Forall₂.cons rfl List.Forall₂.nil))).1⟩

end Glider
